import Mathlib

/-!
Shallow embedding of src/scripts/generate-database.py
(texlive-auto-package-install filename-database generator).

Python dictionaries are modelled as insertion-ordered association lists with
unique keys; dictionary writes are modelled by dictInsert (replace the value at
the existing key position, else append), matching CPython semantics.  Byte
strings are lists of naturals (each < 256 in practice).  The external
collaborators (libhydrogen digests and signatures, zlib deflate, the zipfile
local-header byte layout) are not part of this repository; they are modelled
from the spec as computable stand-ins, since every claim depends only on which
bytes are fed to them and on their determinism, never on their internals.
-/

deriving instance DecidableEq for Except

namespace NetInstall

/-- Source tag of a file observation, Literal["tlpdb", "ctan"] in the source. -/
inductive Source where
  | tlpdb : Source
  | ctan : Source
deriving DecidableEq, Repr

/-- FileEntry NamedTuple: one observation of a file in one catalog. -/
structure FileEntry where
  filename : String
  path : String
  source : Source
  date : Option Int
  revision : Option Int
deriving DecidableEq, Repr

/-- FileList = dict[str, list[FileEntry]], as an insertion-ordered assoc list. -/
abbrev FileList := List (String × List FileEntry)

/-- CTANRow NamedTuple: a database row for a file served from CTAN. -/
structure CTANRow where
  path : String
  revision : Int
  hash : List Nat
deriving DecidableEq, Repr

/-- ZipRow NamedTuple: a database row for a file bundled in the zip file. -/
structure ZipRow where
  path : String
  revision : Int
  hash : List Nat
  start_offset : Nat
  end_offset : Nat
deriving DecidableEq, Repr

/-- DatabaseRow = CTANRow | ZipRow (a closed union in the source). -/
inductive DatabaseRow where
  | ctanRow : CTANRow → DatabaseRow
  | zipRow : ZipRow → DatabaseRow
deriving DecidableEq, Repr

/-- Local filesystem node under the texmf-dist root: a regular file with
contents, a directory (open raises IsADirectoryError), or absent
(open raises FileNotFoundError). -/
inductive FsNode where
  | file : List Nat → FsNode
  | dir : FsNode
  | missing : FsNode
deriving DecidableEq, Repr

/-- The fatal exceptions the script can raise while building the database. -/
inductive PipelineError where
  | missingFromTlpdb : String → PipelineError
  | missingRevision : String → PipelineError
  | emptyRecordList : String → PipelineError
  | fileNotFound : String → PipelineError
  | parseError : PipelineError
  | unrepresentableString : PipelineError
  | unicodeEncodeError : PipelineError
deriving DecidableEq, Repr

/-- Dict lookup: value stored at a key (first occurrence; keys are unique in
every list that models a Python dict). -/
def alistLookup {β : Type} : List (String × β) → String → Option β
  | [], _ => none
  | (k, v) :: rest, key => if k = key then some v else alistLookup rest key

/-- Python `key in d`. -/
def memKeys {β : Type} (l : List (String × β)) (key : String) : Bool :=
  (alistLookup l key).isSome

/-- Python `d[k] = v`: replace the value at an existing key in place, else
append a new pair at the end (CPython insertion-order semantics). -/
def dictInsert {β : Type} : List (String × β) → String → β → List (String × β)
  | [], key, v => [(key, v)]
  | (k, w) :: rest, key, v =>
    if k = key then (k, v) :: rest else (k, w) :: dictInsert rest key v

/-- Python `if k not in d: d[k] = []` followed by `d[k].append(e)`. -/
def dictAppendEntry : FileList → String → FileEntry → FileList
  | [], key, e => [(key, [e])]
  | (k, es) :: rest, key, e =>
    if k = key then (k, es ++ [e]) :: rest else (k, es) :: dictAppendEntry rest key e

/-- Python `d1 | d2` on dicts: start from d1 and write every pair of d2 into
it (values of d2 win on shared keys; d1 key positions are kept). -/
def dictUnion {β : Type} (l1 l2 : List (String × β)) : List (String × β) :=
  l2.foldl (fun acc kv => dictInsert acc kv.1 kv.2) l1

/-- Keys of a modelled dict, in insertion order. -/
def keysOf {β : Type} (l : List (String × β)) : List String :=
  l.map Prod.fst

/-- The invariant of every list that models a Python dict: unique keys. -/
def NodupKeys {β : Type} (l : List (String × β)) : Prop :=
  (l.map Prod.fst).Nodup

/-- Modelled from the spec: libhydrogen's fixed-width content digest
(hydro_hash_hash, an external C library).  Every claim depends only on which
bytes are digested, so the digest is abstracted as a computable injection. -/
def hash_message (message : List Nat) : List Nat :=
  message

/-- Python bytes slice `l[a : b]` for 0 ≤ a ≤ b (clamped at the length). -/
def pySlice (l : List Nat) (a b : Nat) : List Nat :=
  (l.drop a).take (b - a)

/-- IGNORE_EXTENSIONS constant. -/
def IGNORE_EXTENSIONS : List String :=
  ["pdf", "png", "jpg", "4ht"]

/-- IGNORE_PACKAGES constant. -/
def IGNORE_PACKAGES : List String :=
  ["lwarp", "00texlive.image", "latex", "l3kernel"]

/-- ZIP_LOCAL_FILE_HEADER_SIZE constant. -/
def ZIP_LOCAL_FILE_HEADER_SIZE : Nat := 30

/-- ZIP_EPOCH constant: the earliest date representable in a zip file. -/
def ZIP_EPOCH : Nat × Nat × Nat × Nat × Nat × Nat :=
  (1980, 1, 1, 0, 0, 0)

/-- zipfile.ZIP_DEFLATED constant. -/
def ZIP_DEFLATED : Nat := 8

/-- Python str.split(sep) for a one-character separator, on char lists. -/
def splitOnCharAux (sep : Char) : List Char → List Char → List (List Char)
  | [], acc => [acc.reverse]
  | c :: rest, acc =>
    if c = sep then acc.reverse :: splitOnCharAux sep rest []
    else splitOnCharAux sep rest (c :: acc)

/-- Python `filename.split(".")[-1]`. -/
def extension (filename : String) : String :=
  String.mk ((splitOnCharAux '.' filename.toList []).getLastD [])

/-- Loop body of get_missing_ctan_files: iterates the filenames of the tlpdb
index that are absent from the ctan index (iteration over a Python set whose
order is unspecified; this model iterates in tlpdb insertion order, and all
claims about the result are membership statements).  A filename with an
ignored extension is skipped; with several records it is skipped; with an
empty record list `entries[0]` raises IndexError; otherwise the sole record
is emitted. -/
def get_missing_go (ctan_files : FileList) : FileList → Except PipelineError (List FileEntry)
  | [] => .ok []
  | (f, es) :: rest =>
    if memKeys ctan_files f then get_missing_go ctan_files rest
    else if extension f ∈ IGNORE_EXTENSIONS then get_missing_go ctan_files rest
    else
      match es with
      | [] => .error (.emptyRecordList f)
      | [e] => do
        let out ← get_missing_go ctan_files rest
        .ok (e :: out)
      | _ => get_missing_go ctan_files rest

/-- get_missing_ctan_files: records in the tlpdb index whose filename is
absent from the ctan index, minus ignored extensions, minus ambiguous
(multi-record) filenames. -/
def get_missing_ctan_files (tlpdb_files ctan_files : FileList) :
    Except PipelineError (List FileEntry) :=
  get_missing_go ctan_files tlpdb_files

/-- Loop body of get_found_ctan_files, iterating the filenames present in both
indices (again a Python set iteration, modelled in tlpdb insertion order; all
claims are membership or is-error statements, which are order independent).
Skips a filename when either index holds several records; raises ValueError
when the tlpdb record lacks a revision; hashes the local file, skipping a
directory (IsADirectoryError is caught) and failing on a missing file
(FileNotFoundError propagates). -/
def get_found_go (ctan_files : FileList) (fs : String → FsNode) :
    FileList → List (String × CTANRow) → Except PipelineError (List (String × CTANRow))
  | [], acc => .ok acc
  | (f, tes) :: rest, acc =>
    match alistLookup ctan_files f with
    | none => get_found_go ctan_files fs rest acc
    | some ces =>
      if ces.length > 1 || tes.length > 1 then get_found_go ctan_files fs rest acc
      else
        match ces with
        | [] => .error (.emptyRecordList f)
        | ce :: _ =>
          match tes with
          | [] => .error (.emptyRecordList f)
          | te :: _ =>
            match te.revision with
            | none => .error (.missingRevision f)
            | some rev =>
              match fs te.path with
              | .file b =>
                get_found_go ctan_files fs rest
                  (dictInsert acc f { path := ce.path, revision := rev, hash := hash_message b })
              | .dir => get_found_go ctan_files fs rest acc
              | .missing => .error (.fileNotFound te.path)

/-- get_found_ctan_files: files present in both indices, emitted as CTANRow
candidates carrying the ctan path and the tlpdb revision. -/
def get_found_ctan_files (tlpdb_files ctan_files : FileList) (fs : String → FsNode) :
    Except PipelineError (List (String × CTANRow)) :=
  get_found_go ctan_files fs tlpdb_files []

/-- The fields of a zipfile.ZipInfo that get_zip_files reads from the built
archive: entry name, declared local-header offset, extra-field bytes and
compressed payload size. -/
structure ZipInfoRec where
  filename : String
  header_offset : Nat
  extra : List Nat
  compress_size : Nat
deriving DecidableEq, Repr

/-- Loop body of get_zip_files over the archive's infolist (in archive order).
A name absent from the tlpdb index raises ValueError (the KeyError is caught
and re-raised); an empty record list raises IndexError; a record without a
revision raises ValueError; otherwise the byte offsets of the compressed data
are computed and the row is stored, its digest taken over the slice
`zip_bytes[start_offset : end_offset + 1]` exactly as in the source. -/
def get_zip_go (tlpdb_files : FileList) (zip_bytes : List Nat) :
    List ZipInfoRec → List (String × ZipRow) → Except PipelineError (List (String × ZipRow))
  | [], acc => .ok acc
  | zi :: rest, acc =>
    match alistLookup tlpdb_files zi.filename with
    | none => .error (.missingFromTlpdb zi.filename)
    | some [] => .error (.emptyRecordList zi.filename)
    | some (te :: _) =>
      match te.revision with
      | none => .error (.missingRevision zi.filename)
      | some rev =>
        let start_offset : Nat :=
          zi.header_offset + ZIP_LOCAL_FILE_HEADER_SIZE + zi.filename.length + zi.extra.length
        let end_offset : Nat := start_offset + zi.compress_size
        get_zip_go tlpdb_files zip_bytes rest
          (dictInsert acc zi.filename
            { path := zi.filename, revision := rev,
              hash := hash_message (pySlice zip_bytes start_offset (end_offset + 1)),
              start_offset := start_offset, end_offset := end_offset })

/-- get_zip_files: map every archive entry to a ZipRow carrying the byte range
of its raw compressed payload inside the archive file. -/
def get_zip_files (tlpdb_files : FileList) (zip_bytes : List Nat) (infos : List ZipInfoRec) :
    Except PipelineError (List (String × ZipRow)) :=
  get_zip_go tlpdb_files zip_bytes infos []

/-- Python string comparison: lexicographic on code points. -/
def charListLE : List Char → List Char → Bool
  | [], _ => true
  | _ :: _, [] => false
  | a :: as, b :: bs =>
    if a.toNat < b.toNat then true
    else if b.toNat < a.toNat then false
    else charListLE as bs

/-- Python `s1 <= s2` on strings. -/
def strLE (s1 s2 : String) : Bool :=
  charListLE s1.toList s2.toList

/-- Lexicographic comparison on (revision key, path), the sort key order used
by both create_zip and save_database (Python tuple comparison). -/
def pairLE (a b : Int × String) : Bool :=
  decide (a.1 < b.1) || (decide (a.1 = b.1) && strLE a.2 b.2)

/-- create_zip sort key: `(entry.revision if entry.revision is not None else -1,
entry.path)`. -/
def zipSortKey (e : FileEntry) : Int × String :=
  (e.revision.getD (-1), e.path)

/-- Comparison of two FileEntry values by their create_zip sort key. -/
def fileEntryLE (e1 e2 : FileEntry) : Bool :=
  pairLE (zipSortKey e1) (zipSortKey e2)

/-- Stable insertion: x is placed before the first element that is not
strictly smaller, so elements inserted earlier keep their relative order
among equals. -/
def pyInsert {α : Type} (le : α → α → Bool) (x : α) : List α → List α
  | [] => [x]
  | y :: ys => if le x y then x :: y :: ys else y :: pyInsert le x ys

/-- Stable sort; extensionally the unique stable sort, hence the function
computed by Python's sorted() for the given boolean key order. -/
def pySorted {α : Type} (le : α → α → Bool) : List α → List α
  | [] => []
  | x :: xs => pyInsert le x (pySorted le xs)

/-- The sorted file sequence of create_zip: ascending (revision, path), with
-1 standing in for a missing revision. -/
def sortedFiles (files : List FileEntry) : List FileEntry :=
  pySorted fileEntryLE files

/-- Modelled from the spec: zlib deflate at the fixed maximum level (the
external compression collaborator).  The claims depend only on the codec
being a fixed deterministic function of the input bytes, so it is abstracted
as a computable injection. -/
def deflate (data : List Nat) : List Nat :=
  data

/-- One written archive member: the ZipInfo metadata pinned by create_zip
plus the compressed payload.  external_attr is 0o444 << 16 and create_system
is 3 (Unix), exactly as pinned in the source. -/
structure ZipEntry where
  filename : String
  date_time : Nat × Nat × Nat × Nat × Nat × Nat
  external_attr : Nat
  create_system : Nat
  compress_type : Nat
  compresslevel : Nat
  data : List Nat
deriving DecidableEq, Repr

/-- The ZipInfo construction plus writestr call of create_zip for one file. -/
def mkZipEntry (e : FileEntry) (contents : List Nat) : ZipEntry :=
  { filename := e.filename, date_time := ZIP_EPOCH,
    external_attr := 0o444 <<< 16, create_system := 3,
    compress_type := ZIP_DEFLATED, compresslevel := 9,
    data := deflate contents }

/-- Loop body of create_zip over the sorted file sequence: open the source
path, skipping a directory (IsADirectoryError is caught) and failing on a
missing file (FileNotFoundError propagates), and append the written member. -/
def create_zip_go (fs : String → FsNode) : List FileEntry → Except PipelineError (List ZipEntry)
  | [] => .ok []
  | e :: rest =>
    match fs e.path with
    | .file b => do
      let out ← create_zip_go fs rest
      .ok (mkZipEntry e b :: out)
    | .dir => create_zip_go fs rest
    | .missing => .error (.fileNotFound e.path)

/-- create_zip: sort the target file set by (revision, path) and write each
regular file as an archive member with pinned date, permissions, platform tag
and compression settings.  The archive file's bytes are a deterministic
function of this member sequence (serializeZip below). -/
def create_zip (fs : String → FsNode) (files : List FileEntry) :
    Except PipelineError (List ZipEntry) :=
  create_zip_go fs (sortedFiles files)

/-- Does the path name a regular file under the root? -/
def isFileAt (fs : String → FsNode) (path : String) : Bool :=
  match fs path with
  | .file _ => true
  | _ => false

/-- Contents of a regular file (junk value otherwise). -/
def contentsAt (fs : String → FsNode) (path : String) : List Nat :=
  match fs path with
  | .file b => b
  | _ => []

/-- The subsequence of the sorted file set that create_zip actually writes:
entries whose source path names a regular file. -/
def zipWrittenFiles (fs : String → FsNode) (files : List FileEntry) : List FileEntry :=
  (sortedFiles files).filter (fun e => isFileAt fs e.path)

/-- ASCII bytes of a string (archive entry names are ASCII; the byte length
equals the character length used by the source's offset arithmetic). -/
def strBytes (s : String) : List Nat :=
  s.toList.map Char.toNat

/-- Modelled from the spec: the classic (non-zip64) 30-byte local file header
written by the external zipfile collaborator.  Only its fixed length enters
any claim, through the offset arithmetic of the Offset Extractor. -/
def localHeaderBytes : List Nat :=
  List.replicate 30 0

/-- Modelled from the spec: the central directory and end-of-central-directory
record that the external zipfile collaborator appends after the last member;
its first byte follows the last payload byte.  No claim reads its contents. -/
def zipTrailer : List Nat :=
  [80, 75, 5, 6] ++ List.replicate 18 0

/-- Byte layout of the written archive: members are laid out back to back,
each as local header (30 bytes) ++ name ++ (empty extra field) ++ compressed
payload, followed by the trailer; the infolist records each member's declared
header offset and compressed size. -/
def serializeZip : List ZipEntry → Nat → List Nat × List ZipInfoRec
  | [], _ => (zipTrailer, [])
  | e :: rest, off =>
    let info : ZipInfoRec :=
      { filename := e.filename, header_offset := off, extra := [], compress_size := e.data.length }
    let chunk := localHeaderBytes ++ strBytes e.filename ++ e.data
    let tail := serializeZip rest (off + chunk.length)
    (chunk ++ tail.1, info :: tail.2)

/-- The database-generation part of run() with both --generate-zip and
--generate-database enabled, starting from the two parsed catalog indices:
compute the missing set, build the archive, compute the found rows, extract
the archive rows, and merge them (zip rows win on shared keys, as in
`ctan_found | zip_files`). -/
def run_database (all_tlpdb_files zip_tlpdb_files ctan_files : FileList)
    (fs : String → FsNode) : Except PipelineError (List (String × DatabaseRow)) := do
  let ctan_missing ← get_missing_ctan_files zip_tlpdb_files ctan_files
  let zipEntries ← create_zip fs ctan_missing
  let ctan_found ← get_found_ctan_files all_tlpdb_files ctan_files fs
  let arch := serializeZip zipEntries 0
  let zip_files ← get_zip_files zip_tlpdb_files arch.1 arch.2
  pure (dictUnion (ctan_found.map (fun p => (p.1, DatabaseRow.ctanRow p.2)))
    (zip_files.map (fun p => (p.1, DatabaseRow.zipRow p.2))))

/-- Python `needle` prefix test on byte strings. -/
def bytesStartsWith : List Nat → List Nat → Bool
  | [], _ => true
  | _ :: _, [] => false
  | a :: as, b :: bs => a == b && bytesStartsWith as bs

/-- Python `needle in hay` substring test on byte strings. -/
def bytesHasSub (needle : List Nat) : List Nat → Bool
  | [] => bytesStartsWith needle []
  | b :: t => bytesStartsWith needle (b :: t) || bytesHasSub needle t

/-- Quote character chosen by CPython bytes repr: a single quote, unless the
bytes contain one and no double quote. -/
def pyReprQuote (s : List Nat) : Nat :=
  if s.contains 39 && !(s.contains 34) then 34 else 39

/-- Lowercase hexadecimal digit byte. -/
def hexDigitByte (n : Nat) : Nat :=
  if n < 10 then 48 + n else 87 + n

/-- CPython bytes repr escape of one byte under the chosen quote. -/
def pyReprEscape (q c : Nat) : List Nat :=
  if c = 92 || c = q then [92, c]
  else if c = 9 then [92, 116]
  else if c = 10 then [92, 110]
  else if c = 13 then [92, 114]
  else if c < 32 || 127 ≤ c then [92, 120, hexDigitByte (c / 16 % 16), hexDigitByte (c % 16)]
  else [c]

/-- Python `repr(s)[1:]` for a bytes value: the repr with the leading b
stripped — quote, escaped bytes, quote. -/
def pyBytesRepr (s : List Nat) : List Nat :=
  let q := pyReprQuote s
  q :: (s.flatMap (pyReprEscape q) ++ [q])

/-- lua_string on bytes: Python-repr escape when the bytes contain CR or LF;
plain double quoting when they contain no double quote and no backslash; the
long-bracket forms otherwise; ValueError when none is safe. -/
def lua_string (s : List Nat) : Except PipelineError (List Nat) :=
  if s.contains 13 || s.contains 10 then .ok (pyBytesRepr s)
  else if !(s.contains 34) && !(s.contains 92) then .ok (34 :: (s ++ [34]))
  else if !(bytesHasSub [93, 93] s) && !(s.getLast? == some 93) then
    .ok ([91, 91] ++ s ++ [93, 93])
  else if !(bytesHasSub [93, 61, 93] s) then .ok ([91, 61, 91] ++ s ++ [93, 61, 93])
  else .error .unrepresentableString

/-- Python str.encode("ascii"): fails on a code point above 127. -/
def ascii_encode (s : String) : Except PipelineError (List Nat) :=
  if s.toList.all (fun c => c.toNat < 128) then .ok (s.toList.map Char.toNat)
  else .error .unicodeEncodeError

/-- lua_string applied to a str argument (the source first encodes it as
ASCII). -/
def lua_string_of_str (s : String) : Except PipelineError (List Nat) := do
  let b ← ascii_encode s
  lua_string b

/-- UTF-8 encoding of one code point. -/
def utf8EncodeCharNat (c : Char) : List Nat :=
  let n := c.toNat
  if n < 128 then [n]
  else if n < 2048 then [192 + n / 64, 128 + n % 64]
  else if n < 65536 then [224 + n / 4096, 128 + n / 64 % 64, 128 + n % 64]
  else [240 + n / 262144, 128 + n / 4096 % 64, 128 + n / 64 % 64, 128 + n % 64]

/-- Python str.encode() — UTF-8 bytes. -/
def utf8Bytes (s : String) : List Nat :=
  s.toList.flatMap utf8EncodeCharNat

/-- Python bytes.isalpha(): nonempty and every byte an ASCII letter. -/
def bytesIsAlpha (s : List Nat) : Bool :=
  !(s.isEmpty) && s.all (fun c => (65 ≤ c && c ≤ 90) || (97 ≤ c && c ≤ 122))

/-- lua_key on bytes: alphabetic keys are emitted bare; any other key is the
lua_string form wrapped in square brackets (with spaces when the escaped form
itself starts with a bracket). -/
def lua_key (s : List Nat) : Except PipelineError (List Nat) :=
  if bytesIsAlpha s then .ok s
  else do
    let ls ← lua_string s
    if bytesStartsWith [91] ls then .ok ([91, 32] ++ ls ++ [32, 93])
    else .ok (91 :: (ls ++ [93]))

/-- Revision of a database row. -/
def rowRevision : DatabaseRow → Int
  | .ctanRow r => r.revision
  | .zipRow r => r.revision

/-- Path of a database row. -/
def rowPath : DatabaseRow → String
  | .ctanRow r => r.path
  | .zipRow r => r.path

/-- save_database sort key order: ascending (revision, path). -/
def dbRowLE (a b : String × DatabaseRow) : Bool :=
  pairLE (rowRevision a.2, rowPath a.2) (rowRevision b.2, rowPath b.2)

/-- The sorted row sequence save_database serializes. -/
def sortedRows (files : List (String × DatabaseRow)) : List (String × DatabaseRow) :=
  pySorted dbRowLE files

/-- Python str() of an integer, as ASCII bytes. -/
def intDecimalBytes (i : Int) : List Nat :=
  strBytes (toString i)

/-- The byte chunk save_database emits for one row of the Lua table. -/
def serializeRow (filename : String) (row : DatabaseRow) : Except PipelineError (List Nat) :=
  match row with
  | .ctanRow r => do
    let k ← lua_key (utf8Bytes filename)
    let p ← lua_string_of_str r.path
    let h ← lua_string r.hash
    .ok (k ++ strBytes "=\x7b" ++ strBytes "source=\"ctan\"," ++
      strBytes "path=" ++ p ++ [44] ++
      strBytes "revision=" ++ intDecimalBytes r.revision ++ [44] ++
      strBytes "hash=" ++ h ++ strBytes "\x7d,")
  | .zipRow r => do
    let k ← lua_key (utf8Bytes filename)
    let p ← lua_string_of_str r.path
    let h ← lua_string r.hash
    let ko ← lua_key (utf8Bytes "offset")
    .ok (k ++ strBytes "=\x7b" ++ strBytes "source=\"zip\"," ++
      strBytes "path=" ++ p ++ [44] ++
      strBytes "revision=" ++ intDecimalBytes r.revision ++ [44] ++
      strBytes "hash=" ++ h ++ [44] ++
      ko ++ strBytes "=" ++ strBytes "\x7b" ++
      intDecimalBytes (Int.ofNat r.start_offset) ++ [44] ++
      intDecimalBytes (Int.ofNat r.end_offset) ++
      strBytes "\x7d" ++ strBytes "\x7d,")

/-- The serialized Lua table literal of save_database, before the external
gzip compression and libhydrogen signature are applied to it: the sorted rows
are emitted in order between `return \x7b` and the closing brace. -/
def save_database_payload (files : List (String × DatabaseRow)) :
    Except PipelineError (List Nat) := do
  let parts ← (sortedRows files).mapM (fun p => serializeRow p.1 p.2)
  .ok (strBytes "return \x7b" ++ parts.flatten ++ [125])

/-! ### The tlpdb catalog parser (filelist_from_tlpdb) -/

/-- Python regex whitespace class, restricted to the ASCII whitespace that can
occur in catalog text. -/
def isPySpace (c : Char) : Bool :=
  c = ' ' || c = '\t' || c = '\n' || c = '\r' || c = '\x0b' || c = '\x0c'

/-- Is the first list a prefix of the second? -/
def charsStartWith : List Char → List Char → Bool
  | [], _ => true
  | _ :: _, [] => false
  | a :: as, b :: bs => a == b && charsStartWith as bs

/-- Python str.split on the two-character separator of the tlpdb format
(package records are separated by blank lines): greedy leftmost
non-overlapping cuts at each newline pair. -/
def splitDoubleNewlineAux : List Char → List Char → List (List Char)
  | '\n' :: '\n' :: rest, acc => acc.reverse :: splitDoubleNewlineAux rest []
  | c :: rest, acc => splitDoubleNewlineAux rest (c :: acc)
  | [], acc => [acc.reverse]

/-- Python `tlpdb.split("\n\n")`. -/
def splitPackages (tlpdb : String) : List String :=
  (splitDoubleNewlineAux tlpdb.toList []).map String.mk

/-- The lines of a package record. -/
def pkgLines (pkg : String) : List (List Char) :=
  splitOnCharAux '\n' pkg.toList []

/-- Decimal digits to a number. -/
def digitsToNat (ds : List Char) : Nat :=
  ds.foldl (fun n c => n * 10 + (c.toNat - 48)) 0

/-- One line matched against TLPDB_PACKAGE_NAME_REGEX
`^name (\S+)\s*$` (MULTILINE): a literal prefix, a nonempty run of
non-whitespace, then only whitespace to the end of the line. -/
def matchNameLine (line : List Char) : Option String :=
  if charsStartWith ("name ".toList) line then
    let rest := line.drop 5
    let w := rest.takeWhile (fun c => !isPySpace c)
    let ws := rest.dropWhile (fun c => !isPySpace c)
    if !w.isEmpty && ws.all isPySpace then some (String.mk w) else none
  else none

/-- One line matched against TLPDB_REVISION_REGEX `^revision (\d+)\s*$`. -/
def matchRevisionLine (line : List Char) : Option Int :=
  if charsStartWith ("revision ".toList) line then
    let rest := line.drop 9
    let w := rest.takeWhile (fun c => c.isDigit)
    let ws := rest.dropWhile (fun c => c.isDigit)
    if !w.isEmpty && ws.all isPySpace then some (Int.ofNat (digitsToNat w)) else none
  else none

/-- re.search over the package text: the first line that matches (MULTILINE
search finds the leftmost match, and each pattern is anchored to one line). -/
def packageName (pkg : String) : Option String :=
  (pkgLines pkg).findSome? matchNameLine

/-- re.search for the package revision. -/
def packageRevision (pkg : String) : Option Int :=
  (pkgLines pkg).findSome? matchRevisionLine

/-- The path-category alternatives of TLPDB_FILE_REGEX, each to be followed by
a slash.  No alternative plus slash is a prefix of another, so at most one can
match a given line, making list order irrelevant. -/
def TLPDB_FORMATS : List String :=
  ["dvips", "metapost", "scripts",
   "tex/latex", "tex/generic", "tex/lualatex", "tex/luatex",
   "fonts/tfm", "fonts/type1", "fonts/vf", "fonts/afm", "fonts/enc",
   "fonts/cmap", "fonts/map", "fonts/opentype", "fonts/truetype"]

/-- The named groups captured by TLPDB_FILE_REGEX from one matching line. -/
structure TlpdbFileMatch where
  path : String
  format : String
  filename : String
deriving DecidableEq, Repr

/-- Split a character list at its last slash: (segment before, segment after);
none when it contains no slash. -/
def splitLastSlash (cs : List Char) : Option (List Char × List Char) :=
  let rev := cs.reverse
  let fnameRev := rev.takeWhile (fun c => c ≠ '/')
  if fnameRev.length = cs.length then none
  else some ((rev.drop (fnameRev.length + 1)).reverse, fnameRev.reverse)

/-- One line matched against TLPDB_FILE_REGEX: a single leading space, the
`texmf-dist/` or `RELOC/` prefix, one allow-listed format category followed by
a slash, then at least one further segment and a final slash-free filename,
with no whitespace anywhere in the path and nothing after it on the line. -/
def matchFileLine (line : List Char) : Option TlpdbFileMatch :=
  let rest0 : Option (List Char) :=
    if charsStartWith (" texmf-dist/".toList) line then some (line.drop 12)
    else if charsStartWith (" RELOC/".toList) line then some (line.drop 7)
    else none
  match rest0 with
  | none => none
  | some rest =>
    match TLPDB_FORMATS.find? (fun f => charsStartWith ((f ++ "/").toList) rest) with
    | none => none
    | some fmt =>
      let cs := rest.drop (fmt.length + 1)
      if cs.all (fun c => !isPySpace c) && !cs.isEmpty then
        match splitLastSlash cs with
        | some (mid, fname) =>
          if !mid.isEmpty && !fname.isEmpty then
            some { path := String.mk rest, format := fmt, filename := String.mk fname }
          else none
        | none => none
      else none

/-- re.finditer of TLPDB_FILE_REGEX over a package: all matching lines in
order (each match consumes a whole line). -/
def packageFileMatches (pkg : String) : List TlpdbFileMatch :=
  (pkgLines pkg).filterMap matchFileLine

/-- Python `package.strip()` truthiness: the package text contains some
non-whitespace character. -/
def pkgNonBlank (pkg : String) : Bool :=
  pkg.toList.any (fun c => !isPySpace c)

/-- Add one regex match of a package to the two indices: always to all_files,
and also to zip_files when the format category starts with `tex/`. -/
def tlpdbAddMatch (rev : Option Int) (acc : FileList × FileList) (m : TlpdbFileMatch) :
    FileList × FileList :=
  let entry : FileEntry :=
    { filename := m.filename, path := m.path, source := .tlpdb, date := none, revision := rev }
  let a := dictAppendEntry acc.1 m.filename entry
  let z :=
    if charsStartWith ("tex/".toList) m.format.toList then dictAppendEntry acc.2 m.filename entry
    else acc.2
  (a, z)

/-- Loop body of filelist_from_tlpdb over the blank-line-separated packages: a
package without a name token is a fatal parse error unless it is blank; an
ignored package contributes nothing; otherwise every matched file line is
indexed under its filename with the package's revision. -/
def tlpdb_go : List String → FileList × FileList → Except PipelineError (FileList × FileList)
  | [], acc => .ok acc
  | pkg :: rest, acc =>
    match packageName pkg with
    | none =>
      if pkgNonBlank pkg then .error .parseError
      else tlpdb_go rest acc
    | some name =>
      if name ∈ IGNORE_PACKAGES then tlpdb_go rest acc
      else
        tlpdb_go rest ((packageFileMatches pkg).foldl (tlpdbAddMatch (packageRevision pkg)) acc)

/-- filelist_from_tlpdb: split the catalog text on blank lines and index every
allow-listed file path of every non-ignored package, producing the full index
and the tex-subtree-only zip index. -/
def filelist_from_tlpdb (tlpdb : String) : Except PipelineError (FileList × FileList) :=
  tlpdb_go (splitPackages tlpdb) ([], [])

/-- Modelled from the spec: a valid bare identifier of the target (Lua) table
syntax — a letter or underscore followed by letters, digits or underscores,
and not a reserved word.  Used only to compare the spec's wording about bare
keys with the implementation's bytes.isalpha criterion. -/
def luaReservedWords : List String :=
  ["and", "break", "do", "else", "elseif", "end", "false", "for", "function",
   "goto", "if", "in", "local", "nil", "not", "or", "repeat", "return",
   "then", "true", "until", "while"]

/-- Modelled from the spec: bare-identifier test for the target table syntax. -/
def isLuaBareIdentifier (s : String) : Bool :=
  match s.toList with
  | [] => false
  | c :: cs =>
    (c.isAlpha || c = '_') && cs.all (fun d => d.isAlpha || d.isDigit || d = '_') &&
      !(luaReservedWords.contains s)

/-- Consistency of one archive entry with the tlpdb index: the name is
present with at least one record and the first record carries a revision —
exactly the condition under which get_zip_files does not raise on it. -/
def ziConsistent (t : FileList) (zi : ZipInfoRec) : Bool :=
  match alistLookup t zi.filename with
  | some (te :: _) => te.revision.isSome
  | _ => false

/-! ### Order lemmas for the (revision, path) sort keys -/

theorem charListLE_total : ∀ a b : List Char, charListLE a b = true ∨ charListLE b a = true
  | [], _ => Or.inl rfl
  | _ :: _, [] => Or.inr rfl
  | a :: as, b :: bs => by
    rcases Nat.lt_trichotomy a.toNat b.toNat with h | h | h
    · left; simp [charListLE, h]
    · have h1 : ¬ a.toNat < b.toNat := by omega
      have h2 : ¬ b.toNat < a.toNat := by omega
      simpa [charListLE, h1, h2] using charListLE_total as bs
    · right; simp [charListLE, h]

theorem charListLE_trans :
    ∀ a b c : List Char, charListLE a b = true → charListLE b c = true → charListLE a c = true
  | [], _, _, _, _ => rfl
  | _ :: _, [], _, hab, _ => by simp [charListLE] at hab
  | _ :: _, _ :: _, [], _, hbc => by simp [charListLE] at hbc
  | a :: as, b :: bs, c :: cs, hab, hbc => by
    simp only [charListLE] at hab hbc ⊢
    rcases Nat.lt_trichotomy a.toNat b.toNat with h1 | h1 | h1 <;>
      rcases Nat.lt_trichotomy b.toNat c.toNat with h2 | h2 | h2 <;>
      first
      | (simp only [if_pos (by omega : a.toNat < c.toNat)])
      | (have ha : ¬ a.toNat < c.toNat := by omega
         have hb : ¬ c.toNat < a.toNat := by omega
         simp only [if_neg ha, if_neg hb]
         have hab2 : charListLE as bs = true := by
           simpa [if_neg (by omega : ¬ a.toNat < b.toNat),
             if_neg (by omega : ¬ b.toNat < a.toNat)] using hab
         have hbc2 : charListLE bs cs = true := by
           simpa [if_neg (by omega : ¬ b.toNat < c.toNat),
             if_neg (by omega : ¬ c.toNat < b.toNat)] using hbc
         exact charListLE_trans as bs cs hab2 hbc2)
      | (exfalso
         first
         | (have : ¬ a.toNat < b.toNat := by omega
            simp [if_neg this, if_pos (by omega : b.toNat < a.toNat)] at hab)
         | (have : ¬ b.toNat < c.toNat := by omega
            simp [if_neg this, if_pos (by omega : c.toNat < b.toNat)] at hbc))

theorem charListLE_antisymm :
    ∀ a b : List Char, charListLE a b = true → charListLE b a = true → a = b
  | [], [], _, _ => rfl
  | _ :: _, [], hab, _ => by simp [charListLE] at hab
  | [], _ :: _, _, hba => by simp [charListLE] at hba
  | a :: as, b :: bs, hab, hba => by
    simp only [charListLE] at hab hba
    rcases Nat.lt_trichotomy a.toNat b.toNat with h | h | h
    · exfalso
      rw [if_neg (by omega : ¬ b.toNat < a.toNat), if_pos h] at hba
      exact Bool.false_ne_true hba
    · have h1 : ¬ a.toNat < b.toNat := by omega
      have h2 : ¬ b.toNat < a.toNat := by omega
      have heq : a = b := by
        have := congrArg Char.ofNat h
        simpa [Char.ofNat_toNat] using this
      have htl : as = bs :=
        charListLE_antisymm as bs (by simpa [h1, h2] using hab) (by simpa [h1, h2] using hba)
      rw [heq, htl]
    · exfalso
      rw [if_neg (by omega : ¬ a.toNat < b.toNat), if_pos h] at hab
      exact Bool.false_ne_true hab

theorem strLE_total (a b : String) : strLE a b = true ∨ strLE b a = true :=
  charListLE_total a.toList b.toList

theorem strLE_trans {a b c : String} (h1 : strLE a b = true) (h2 : strLE b c = true) :
    strLE a c = true :=
  charListLE_trans a.toList b.toList c.toList h1 h2

theorem strLE_antisymm {a b : String} (h1 : strLE a b = true) (h2 : strLE b a = true) : a = b := by
  have h := charListLE_antisymm a.toList b.toList h1 h2
  cases a with
  | mk d1 =>
    cases b with
    | mk d2 =>
      have hd : d1 = d2 := by simpa [String.toList] using h
      rw [hd]

theorem pairLE_total (a b : Int × String) : pairLE a b = true ∨ pairLE b a = true := by
  unfold pairLE
  rcases Int.lt_trichotomy a.1 b.1 with h | h | h
  · left; simp [h]
  · rcases strLE_total a.2 b.2 with hs | hs
    · left; simp [h, hs]
    · right; simp [h.symm, hs]
  · right; simp [h]

theorem pairLE_trans {a b c : Int × String} (h1 : pairLE a b = true) (h2 : pairLE b c = true) :
    pairLE a c = true := by
  unfold pairLE at h1 h2 ⊢
  simp only [Bool.or_eq_true, Bool.and_eq_true, decide_eq_true_eq] at h1 h2 ⊢
  rcases h1 with h1 | ⟨h1e, h1s⟩
  · rcases h2 with h2 | ⟨h2e, h2s⟩
    · exact Or.inl (h1.trans h2)
    · exact Or.inl (h2e ▸ h1)
  · rcases h2 with h2 | ⟨h2e, h2s⟩
    · exact Or.inl (h1e ▸ h2)
    · exact Or.inr ⟨h1e.trans h2e, strLE_trans h1s h2s⟩

theorem pairLE_antisymm {a b : Int × String} (h1 : pairLE a b = true) (h2 : pairLE b a = true) :
    a = b := by
  unfold pairLE at h1 h2
  simp only [Bool.or_eq_true, Bool.and_eq_true, decide_eq_true_eq] at h1 h2
  rcases h1 with h1 | ⟨h1e, h1s⟩
  · rcases h2 with h2 | ⟨h2e, h2s⟩
    · omega
    · omega
  · rcases h2 with h2 | ⟨h2e, h2s⟩
    · omega
    · exact Prod.ext h1e (strLE_antisymm h1s h2s)

theorem fileEntryLE_total (a b : FileEntry) : fileEntryLE a b = true ∨ fileEntryLE b a = true :=
  pairLE_total _ _

theorem fileEntryLE_trans {a b c : FileEntry} (h1 : fileEntryLE a b = true)
    (h2 : fileEntryLE b c = true) : fileEntryLE a c = true :=
  pairLE_trans h1 h2

theorem fileEntryLE_antisymm_key {a b : FileEntry} (h1 : fileEntryLE a b = true)
    (h2 : fileEntryLE b a = true) : zipSortKey a = zipSortKey b :=
  pairLE_antisymm h1 h2

theorem dbRowLE_total (a b : String × DatabaseRow) : dbRowLE a b = true ∨ dbRowLE b a = true :=
  pairLE_total _ _

theorem dbRowLE_trans {a b c : String × DatabaseRow} (h1 : dbRowLE a b = true)
    (h2 : dbRowLE b c = true) : dbRowLE a c = true :=
  pairLE_trans h1 h2

/-! ### Stable sort lemmas -/

theorem pyInsert_perm {α : Type} (le : α → α → Bool) (x : α) :
    ∀ l : List α, (pyInsert le x l).Perm (x :: l)
  | [] => List.Perm.refl _
  | y :: ys => by
    unfold pyInsert
    by_cases h : le x y = true
    · simp [h]
    · simp only [h]
      exact ((pyInsert_perm le x ys).cons y).trans (List.Perm.swap x y ys)

theorem pySorted_perm {α : Type} (le : α → α → Bool) : ∀ l : List α, (pySorted le l).Perm l
  | [] => List.Perm.refl _
  | x :: xs =>
    (pyInsert_perm le x (pySorted le xs)).trans ((pySorted_perm le xs).cons x)

theorem mem_pyInsert {α : Type} {le : α → α → Bool} {x b : α} {l : List α} :
    b ∈ pyInsert le x l ↔ b = x ∨ b ∈ l := by
  rw [(pyInsert_perm le x l).mem_iff]
  simp

theorem pairwise_pyInsert {α : Type} {le : α → α → Bool}
    (htot : ∀ a b, le a b = true ∨ le b a = true)
    (htr : ∀ a b c, le a b = true → le b c = true → le a c = true) (x : α) :
    ∀ l : List α, l.Pairwise (fun a b => le a b = true) →
      (pyInsert le x l).Pairwise (fun a b => le a b = true)
  | [], _ => by simp [pyInsert]
  | y :: ys, h => by
    unfold pyInsert
    rcases List.pairwise_cons.mp h with ⟨hy, hys⟩
    by_cases hxy : le x y = true
    · rw [if_pos hxy]
      refine List.pairwise_cons.mpr ⟨?_, h⟩
      intro b hb
      rcases List.mem_cons.mp hb with hb | hb
      · exact hb ▸ hxy
      · exact htr x y b hxy (hy b hb)
    · have hyx : le y x = true := (htot x y).resolve_left hxy
      rw [if_neg hxy]
      refine List.pairwise_cons.mpr ⟨?_, pairwise_pyInsert htot htr x ys hys⟩
      intro b hb
      rcases mem_pyInsert.mp hb with hb | hb
      · exact hb ▸ hyx
      · exact hy b hb

theorem pairwise_pySorted {α : Type} {le : α → α → Bool}
    (htot : ∀ a b, le a b = true ∨ le b a = true)
    (htr : ∀ a b c, le a b = true → le b c = true → le a c = true) :
    ∀ l : List α, (pySorted le l).Pairwise (fun a b => le a b = true)
  | [] => List.Pairwise.nil
  | x :: xs => pairwise_pyInsert htot htr x _ (pairwise_pySorted htot htr xs)

/-- Two sorted lists that are permutations of each other are equal, provided
no two elements of the first compare equal both ways (pairwise-distinct sort
keys). -/
theorem sorted_perm_eq {α : Type} {le : α → α → Bool} :
    ∀ l1 l2 : List α, l1.Perm l2 →
      l1.Pairwise (fun a b => le a b = true) → l2.Pairwise (fun a b => le a b = true) →
      l1.Pairwise (fun a b => ¬(le a b = true ∧ le b a = true)) → l1 = l2
  | [], l2, hp, _, _, _ => hp.nil_eq
  | a :: t1, [], hp, _, _, _ => by
    have := hp.length_eq
    simp at this
  | a :: t1, b :: t2, hp, h1, h2, hk => by
    rcases List.pairwise_cons.mp h1 with ⟨ha, ht1⟩
    rcases List.pairwise_cons.mp h2 with ⟨hb, ht2⟩
    rcases List.pairwise_cons.mp hk with ⟨hka, hkt⟩
    have hab : a = b := by
      by_contra hne
      have hamem : a ∈ b :: t2 := hp.subset (List.mem_cons_self a t1)
      have hbmem : b ∈ a :: t1 := hp.symm.subset (List.mem_cons_self b t2)
      have hat2 : a ∈ t2 := by
        rcases List.mem_cons.mp hamem with h | h
        · exact absurd h hne
        · exact h
      have hbt1 : b ∈ t1 := by
        rcases List.mem_cons.mp hbmem with h | h
        · exact absurd h.symm hne
        · exact h
      exact hka b hbt1 ⟨ha b hbt1, hb a hat2⟩
    subst hab
    have htp : t1.Perm t2 := hp.cons_inv
    rw [sorted_perm_eq t1 t2 htp ht1 ht2 hkt]

/-! ### Association list (modelled dict) lemmas -/

theorem alistLookup_dictInsert {β : Type} :
    ∀ (l : List (String × β)) (k : String) (v : β) (g : String),
      alistLookup (dictInsert l k v) g = if g = k then some v else alistLookup l g
  | [], k, v, g => by
    by_cases h : g = k
    · subst h; simp [dictInsert, alistLookup]
    · have h3 : ¬ k = g := fun hk => h hk.symm
      simp [dictInsert, alistLookup, h, h3]
  | (k1, w) :: rest, k, v, g => by
    by_cases h1 : k1 = k
    · subst h1
      by_cases h2 : g = k1
      · subst h2; simp [dictInsert, alistLookup]
      · have h3 : ¬ k1 = g := fun hk => h2 hk.symm
        simp [dictInsert, alistLookup, h2, h3]
    · by_cases h2 : k1 = g
      · subst h2
        simp [dictInsert, alistLookup, h1]
      · simp [dictInsert, alistLookup, h1, h2, alistLookup_dictInsert rest k v g]

theorem memKeys_iff_mem_keysOf {β : Type} :
    ∀ (l : List (String × β)) (g : String), memKeys l g = true ↔ g ∈ keysOf l
  | [], g => by simp [memKeys, alistLookup, keysOf]
  | (k, v) :: rest, g => by
    by_cases h : k = g
    · subst h; simp [memKeys, alistLookup, keysOf]
    · simp only [memKeys, alistLookup, if_neg h, keysOf, List.map_cons, List.mem_cons]
      rw [show ((alistLookup rest g).isSome = true ↔ g ∈ keysOf rest) from
        memKeys_iff_mem_keysOf rest g]
      constructor
      · exact Or.inr
      · rintro (hg | hg)
        · exact absurd hg.symm h
        · exact hg

theorem alistLookup_some_mem {β : Type} :
    ∀ {l : List (String × β)} {k : String} {v : β}, alistLookup l k = some v → (k, v) ∈ l := by
  intro l
  induction l with
  | nil => intro k v h; simp [alistLookup] at h
  | cons p rest ih =>
    intro k v h
    obtain ⟨k1, w⟩ := p
    by_cases h1 : k1 = k
    · subst h1
      have hw : w = v := by simpa [alistLookup] using h
      subst hw
      exact List.mem_cons_self _ _
    · simp only [alistLookup, if_neg h1] at h
      exact List.mem_cons_of_mem _ (ih h)

theorem alistLookup_of_nodup_mem {β : Type} :
    ∀ {l : List (String × β)} {k : String} {v : β},
      NodupKeys l → (k, v) ∈ l → alistLookup l k = some v := by
  intro l
  induction l with
  | nil => intro k v _ h; simp at h
  | cons p rest ih =>
    intro k v hnd hm
    obtain ⟨k1, w⟩ := p
    rcases List.mem_cons.mp hm with h | h
    · rw [Prod.mk.injEq] at h
      rcases h with ⟨h1, h2⟩
      subst h1; subst h2
      simp [alistLookup]
    · have hk1 : k1 ≠ k := by
        intro he
        subst he
        have : k1 ∈ (rest.map Prod.fst) := List.mem_map_of_mem Prod.fst h
        exact (List.nodup_cons.mp hnd).1 this
      simp only [alistLookup, if_neg hk1]
      exact ih (List.nodup_cons.mp hnd).2 h

theorem nodupKeys_dictInsert {β : Type} :
    ∀ (l : List (String × β)) (k : String) (v : β), NodupKeys l → NodupKeys (dictInsert l k v)
  | [], k, v, _ => by simp [dictInsert, NodupKeys]
  | (k1, w) :: rest, k, v, hnd => by
    by_cases h1 : k1 = k
    · subst h1
      simpa [dictInsert, NodupKeys] using hnd
    · simp only [dictInsert, if_neg h1, NodupKeys, List.map_cons, List.nodup_cons]
      rcases List.nodup_cons.mp hnd with ⟨hk1, hrest⟩

      refine ⟨?_, nodupKeys_dictInsert rest k v hrest⟩
      intro hmem
      have : memKeys (dictInsert rest k v) k1 = true :=
        (memKeys_iff_mem_keysOf _ _).mpr hmem
      rw [memKeys, alistLookup_dictInsert rest k v k1, if_neg (fun h : k1 = k => h1 h)] at this
      exact hk1 ((memKeys_iff_mem_keysOf rest k1).mp this)

theorem nodupKeys_dictUnion {β : Type} :
    ∀ (l2 l1 : List (String × β)), NodupKeys l1 → NodupKeys (dictUnion l1 l2)
  | [], l1, h => h
  | kv :: rest, l1, h =>
    nodupKeys_dictUnion rest (dictInsert l1 kv.1 kv.2) (nodupKeys_dictInsert l1 kv.1 kv.2 h)

theorem memKeys_dictUnion_left {β : Type} :
    ∀ (l2 l1 : List (String × β)) (g : String),
      memKeys l1 g = true → memKeys (dictUnion l1 l2) g = true
  | [], l1, g, h => h
  | kv :: rest, l1, g, h => by
    refine memKeys_dictUnion_left rest (dictInsert l1 kv.1 kv.2) g ?_
    rw [memKeys, alistLookup_dictInsert l1 kv.1 kv.2 g]
    by_cases hg : g = kv.1
    · simp [hg]
    · rw [if_neg hg]
      exact h

theorem keysOf_mapVal {β γ : Type} (f : β → γ) (l : List (String × β)) :
    keysOf (l.map (fun p => (p.1, f p.2))) = keysOf l := by
  simp [keysOf, List.map_map, Function.comp]

theorem nodupKeys_mapVal {β γ : Type} (f : β → γ) (l : List (String × β)) (h : NodupKeys l) :
    NodupKeys (l.map (fun p => (p.1, f p.2))) := by
  unfold NodupKeys at h ⊢
  rw [show (l.map (fun p => (p.1, f p.2))).map Prod.fst = keysOf (l.map (fun p => (p.1, f p.2)))
    from rfl, keysOf_mapVal]
  exact h

theorem memKeys_mapVal {β γ : Type} (f : β → γ) (l : List (String × β)) (g : String) :
    memKeys (l.map (fun p => (p.1, f p.2))) g = memKeys l g := by
  induction l with
  | nil => rfl
  | cons p rest ih =>
    by_cases h : p.1 = g
    · simp [memKeys, alistLookup, h]
    · simpa [memKeys, alistLookup, h] using ih

/-! ### create_zip structural lemmas -/

theorem create_zip_go_ok {fs : String → FsNode} :
    ∀ l : List FileEntry, (∀ e ∈ l, fs e.path ≠ FsNode.missing) →
      create_zip_go fs l =
        .ok ((l.filter (fun e => isFileAt fs e.path)).map
          (fun e => mkZipEntry e (contentsAt fs e.path)))
  | [], _ => rfl
  | e :: rest, h => by
    have hrest := create_zip_go_ok rest (fun x hx => h x (List.mem_cons_of_mem e hx))
    cases hfe : fs e.path with
    | file b =>
      simp only [create_zip_go, hfe, hrest]
      simp [Bind.bind, Except.bind, List.filter_cons, isFileAt, hfe, contentsAt]
    | dir =>
      simp only [create_zip_go, hfe, hrest]
      simp [List.filter_cons, isFileAt, hfe]
    | missing => exact absurd hfe (h e (List.mem_cons_self e rest))

theorem create_zip_go_isOk {fs : String → FsNode} :
    ∀ l : List FileEntry,
      (create_zip_go fs l).isOk = true ↔ ∀ e ∈ l, fs e.path ≠ FsNode.missing
  | [] => by simp [create_zip_go, Except.isOk, Except.toBool]
  | e :: rest => by
    cases hfe : fs e.path with
    | file b =>
      simp only [create_zip_go, hfe]
      constructor
      · intro h x hx
        rcases List.mem_cons.mp hx with hx | hx
        · subst hx; simp [hfe]
        · refine (create_zip_go_isOk rest).mp ?_ x hx
          cases hgo : create_zip_go fs rest with
          | ok out => simp [Except.isOk, Except.toBool]
          | error err => rw [hgo] at h; simp [Bind.bind, Except.bind, Except.isOk, Except.toBool] at h
      · intro h
        have : (create_zip_go fs rest).isOk = true :=
          (create_zip_go_isOk rest).mpr (fun x hx => h x (List.mem_cons_of_mem e hx))
        cases hgo : create_zip_go fs rest with
        | ok out => simp [hgo, Bind.bind, Except.bind, Except.isOk, Except.toBool]
        | error err => rw [hgo] at this; simp [Except.isOk, Except.toBool] at this
    | dir =>
      simp only [create_zip_go, hfe]
      rw [create_zip_go_isOk rest]
      constructor
      · intro h x hx
        rcases List.mem_cons.mp hx with hx | hx
        · subst hx; simp [hfe]
        · exact h x hx
      · intro h x hx
        exact h x (List.mem_cons_of_mem e hx)
    | missing =>
      simp only [create_zip_go, hfe]
      constructor
      · intro h
        simp [Except.isOk, Except.toBool] at h
      · intro h
        exact absurd hfe (h e (List.mem_cons_self e rest))

/-! ### get_zip_files lemmas -/

theorem get_zip_go_isOk (t : FileList) (zb : List Nat) :
    ∀ (infos : List ZipInfoRec) (acc : List (String × ZipRow)),
      (get_zip_go t zb infos acc).isOk = infos.all (ziConsistent t)
  | [], acc => by simp [get_zip_go, Except.isOk, Except.toBool]
  | zi :: rest, acc => by
    rw [List.all_cons]
    unfold get_zip_go
    cases hl : alistLookup t zi.filename with
    | none =>
      have hz : ziConsistent t zi = false := by simp [ziConsistent, hl]
      simp [hz, Except.isOk, Except.toBool]
    | some tes =>
      cases tes with
      | nil =>
        have hz : ziConsistent t zi = false := by simp [ziConsistent, hl]
        simp [hz, Except.isOk, Except.toBool]
      | cons te tes2 =>
        cases hr : te.revision with
        | none =>
          have hz : ziConsistent t zi = false := by simp [ziConsistent, hl, hr]
          simp [hr, hz, Except.isOk, Except.toBool]
        | some rev =>
          have hz : ziConsistent t zi = true := by simp [ziConsistent, hl, hr]
          simp [hr, hz, get_zip_go_isOk t zb rest _]

theorem get_zip_go_preserve (t : FileList) (zb : List Nat) :
    ∀ (infos : List ZipInfoRec) (acc rows : List (String × ZipRow)) (f : String),
      (∀ zi ∈ infos, zi.filename ≠ f) → get_zip_go t zb infos acc = .ok rows →
      alistLookup rows f = alistLookup acc f
  | [], acc, rows, f, _, hok => by
    simp only [get_zip_go, Except.ok.injEq] at hok
    rw [hok]
  | zi :: rest, acc, rows, f, hne, hok => by
    unfold get_zip_go at hok
    split at hok
    · exact absurd hok (by simp)
    · exact absurd hok (by simp)
    · split at hok
      · exact absurd hok (by simp)
      · have := get_zip_go_preserve t zb rest _ rows f
          (fun x hx => hne x (List.mem_cons_of_mem zi hx)) hok
        rw [this, alistLookup_dictInsert,
          if_neg (fun h : f = zi.filename => hne zi (List.mem_cons_self zi rest) h.symm)]

theorem get_zip_go_nodup (t : FileList) (zb : List Nat) :
    ∀ (infos : List ZipInfoRec) (acc rows : List (String × ZipRow)),
      NodupKeys acc → get_zip_go t zb infos acc = .ok rows → NodupKeys rows
  | [], acc, rows, hnd, hok => by
    simp only [get_zip_go, Except.ok.injEq] at hok
    rw [← hok]
    exact hnd
  | zi :: rest, acc, rows, hnd, hok => by
    unfold get_zip_go at hok
    split at hok
    · exact absurd hok (by simp)
    · exact absurd hok (by simp)
    · split at hok
      · exact absurd hok (by simp)
      · exact get_zip_go_nodup t zb rest _ rows
          (nodupKeys_dictInsert acc zi.filename _ hnd) hok

theorem get_zip_go_lookup (t : FileList) (zb : List Nat) :
    ∀ (infos : List ZipInfoRec) (acc rows : List (String × ZipRow)),
      (infos.map (fun zi => zi.filename)).Nodup →
      get_zip_go t zb infos acc = .ok rows →
      ∀ zi ∈ infos, ∃ row, alistLookup rows zi.filename = some row ∧
        row.path = zi.filename ∧
        row.start_offset =
          zi.header_offset + ZIP_LOCAL_FILE_HEADER_SIZE + zi.filename.length + zi.extra.length ∧
        row.end_offset = row.start_offset + zi.compress_size ∧
        row.hash = hash_message (pySlice zb row.start_offset (row.end_offset + 1))
  | [], _, _, _, _, zi, hmem => absurd hmem (by simp)
  | zi0 :: rest, acc, rows, hnd, hok, zi, hmem => by
    unfold get_zip_go at hok
    split at hok
    · exact absurd hok (by simp)
    · exact absurd hok (by simp)
    · split at hok
      · exact absurd hok (by simp)
      · rcases List.mem_cons.mp hmem with hz | hz
        · subst hz
          have hnd2 : (∀ x ∈ rest, ¬ x.filename = zi.filename) ∧
              (rest.map (fun w => w.filename)).Nodup := by simpa using hnd
          have hpres := get_zip_go_preserve t zb rest _ rows zi.filename hnd2.1 hok
          exact ⟨_, by rw [hpres, alistLookup_dictInsert, if_pos rfl], rfl, rfl, rfl, rfl⟩
        · have hnd2 : (∀ x ∈ rest, ¬ x.filename = zi0.filename) ∧
              (rest.map (fun w => w.filename)).Nodup := by simpa using hnd
          exact get_zip_go_lookup t zb rest _ rows hnd2.2 hok zi hz

theorem ziConsistent_iff (t : FileList) (zi : ZipInfoRec) :
    ziConsistent t zi = true ↔
      ∃ te tes, alistLookup t zi.filename = some (te :: tes) ∧ te.revision.isSome = true := by
  unfold ziConsistent
  cases hl : alistLookup t zi.filename with
  | none => simp
  | some tes =>
    cases tes with
    | nil => simp
    | cons te tes2 =>
      simp only [Option.some.injEq]
      constructor
      · intro h
        exact ⟨te, tes2, rfl, h⟩
      · rintro ⟨te2, tes3, heq, hrev⟩
        cases heq
        exact hrev

/-! ### Claim theorems -/

/-- C1 (code bug): the digest stored by get_zip_files in a ZipRow is computed
over `zip_bytes[start_offset : end_offset + 1]` — one byte PAST the declared
byte range.  At this concrete archive the entry's raw compressed payload is
the two bytes [7, 8] at positions [31, 33), yet the stored digest covers the
three bytes [7, 8, 80], and differs from the digest of the
[startOffset, endOffset) slice that the consumer contract reads. -/
theorem claim_C1_hash_range_bug :
    get_zip_files [("a", [⟨"a", "tex/latex/x/a", Source.tlpdb, none, some 1⟩])]
        (List.replicate 31 0 ++ [7, 8, 80]) [⟨"a", 0, [], 2⟩] =
      .ok [("a", { path := "a", revision := 1, hash := [7, 8, 80],
                   start_offset := 31, end_offset := 33 })] ∧
    pySlice (List.replicate 31 0 ++ [7, 8, 80]) 31 33 = [7, 8] ∧
    hash_message [7, 8, 80] ≠
      hash_message (pySlice (List.replicate 31 0 ++ [7, 8, 80]) 31 33) :=
  ⟨by decide, by decide, by decide⟩

/-- C2: for every entry of an archive on which get_zip_files succeeds (entry
names unique, as in every archive the builder produces), the stored row
satisfies startOffset = headerOffset + 30 + len(name) + len(extra) and
endOffset = startOffset + compressedSize. -/
theorem claim_C2_offsets :
    ∀ (t : FileList) (zb : List Nat) (infos : List ZipInfoRec)
      (rows : List (String × ZipRow)),
      (infos.map (fun zi => zi.filename)).Nodup →
      get_zip_files t zb infos = .ok rows →
      ∀ zi ∈ infos, ∃ row, alistLookup rows zi.filename = some row ∧
        row.path = zi.filename ∧
        row.start_offset =
          zi.header_offset + ZIP_LOCAL_FILE_HEADER_SIZE + zi.filename.length + zi.extra.length ∧
        row.end_offset = row.start_offset + zi.compress_size := by
  intro t zb infos rows hnd hok zi hmem
  rcases get_zip_go_lookup t zb infos [] rows hnd hok zi hmem with ⟨row, h1, h2, h3, h4, _⟩
  exact ⟨row, h1, h2, h3, h4⟩

/-- Witness for C2 at a concrete archive: the offsets are 5 + 30 + 5 + 2 = 42
and 42 + 3 = 45. -/
theorem claim_C2_offsets_witness :
    ∃ rows, get_zip_files [("b.sty", [⟨"b.sty", "tex/latex/b/b.sty", Source.tlpdb, none, some 4⟩])]
        (List.replicate 50 1) [⟨"b.sty", 5, [1, 2], 3⟩] = .ok rows ∧
      ∃ row, alistLookup rows "b.sty" = some row ∧ row.path = "b.sty" ∧
        row.start_offset = 42 ∧ row.end_offset = 45 := by
  refine ⟨_, rfl, ?_⟩
  have h := claim_C2_offsets
    [("b.sty", [⟨"b.sty", "tex/latex/b/b.sty", Source.tlpdb, none, some 4⟩])]
    (List.replicate 50 1) [⟨"b.sty", 5, [1, 2], 3⟩] _ (by decide) rfl
    ⟨"b.sty", 5, [1, 2], 3⟩ (by decide)
  rcases h with ⟨row, h1, h2, h3, h4⟩
  refine ⟨row, h1, h2, ?_, ?_⟩
  · rw [h3]; decide
  · rw [h4, h3]; decide

/-- C8: get_zip_files returns normally exactly when every archive entry name
has a record in the tlpdb index and that record carries a revision; any
missing name or missing revision makes it raise instead of skipping. -/
theorem claim_C8_fatal_inconsistency :
    ∀ (t : FileList) (zb : List Nat) (infos : List ZipInfoRec),
      (get_zip_files t zb infos).isOk = true ↔
        ∀ zi ∈ infos, ∃ te tes, alistLookup t zi.filename = some (te :: tes) ∧
          te.revision.isSome = true := by
  intro t zb infos
  rw [get_zip_files, get_zip_go_isOk t zb infos [], List.all_eq_true]
  constructor
  · intro h zi hzi
    exact (ziConsistent_iff t zi).mp (h zi hzi)
  · intro h zi hzi
    exact (ziConsistent_iff t zi).mpr (h zi hzi)

/-- Witness for C8: a consistent archive-index pair on which get_zip_files
returns normally. -/
theorem claim_C8_fatal_inconsistency_witness :
    (get_zip_files [("c.sty", [⟨"c.sty", "tex/latex/c/c.sty", Source.tlpdb, none, some 2⟩])]
      (List.replicate 45 0) [⟨"c.sty", 0, [], 4⟩]).isOk = true :=
  (claim_C8_fatal_inconsistency
    [("c.sty", [⟨"c.sty", "tex/latex/c/c.sty", Source.tlpdb, none, some 2⟩])]
    (List.replicate 45 0) [⟨"c.sty", 0, [], 4⟩]).mpr (by
      intro zi hzi
      rw [List.mem_singleton] at hzi
      subst hzi
      exact ⟨_, _, rfl, rfl⟩)

theorem create_zip_ok_eq {fs : String → FsNode} {files : List FileEntry} {es : List ZipEntry}
    (hok : create_zip fs files = .ok es) :
    es = (zipWrittenFiles fs files).map (fun e => mkZipEntry e (contentsAt fs e.path)) := by
  have hisok : (create_zip_go fs (sortedFiles files)).isOk = true := by
    rw [show create_zip_go fs (sortedFiles files) = create_zip fs files from rfl, hok]
    rfl
  have hmiss := (create_zip_go_isOk (sortedFiles files)).mp hisok
  have heq := create_zip_go_ok (sortedFiles files) hmiss
  rw [create_zip, heq] at hok
  exact (Except.ok.inj hok).symm

/-- C5: entries are written in ascending (revision, path) order in both
artifacts: a successful create_zip run writes exactly the sorted-then-filtered
file sequence, which is pairwise ordered by the (revision, path) key, and
save_database serializes its rows sorted by (revision, path) ascending. -/
theorem claim_C5_ordering :
    (∀ (fs : String → FsNode) (files : List FileEntry) (es : List ZipEntry),
      create_zip fs files = .ok es →
      es = (zipWrittenFiles fs files).map (fun e => mkZipEntry e (contentsAt fs e.path)) ∧
      (zipWrittenFiles fs files).Pairwise (fun a b => fileEntryLE a b = true)) ∧
    (∀ rows : List (String × DatabaseRow),
      (sortedRows rows).Pairwise (fun a b => dbRowLE a b = true)) := by
  constructor
  · intro fs files es hok
    refine ⟨create_zip_ok_eq hok, ?_⟩
    exact (pairwise_pySorted fileEntryLE_total (fun a b c => fileEntryLE_trans) files).filter _
  · intro rows
    exact pairwise_pySorted dbRowLE_total (fun a b c => dbRowLE_trans) rows

/-- Witness for C5 at a concrete run: two files with revisions 2 and 1 are
written in swapped (sorted) order, and the written sequence is pairwise
ordered. -/
theorem claim_C5_ordering_witness :
    [mkZipEntry ⟨"b", "pb", Source.tlpdb, none, some 1⟩ [5],
     mkZipEntry ⟨"a", "pa", Source.tlpdb, none, some 2⟩ [5]] =
      (zipWrittenFiles (fun _ => FsNode.file [5])
          [⟨"a", "pa", Source.tlpdb, none, some 2⟩, ⟨"b", "pb", Source.tlpdb, none, some 1⟩]).map
        (fun e => mkZipEntry e (contentsAt (fun _ => FsNode.file [5]) e.path)) ∧
    (zipWrittenFiles (fun _ => FsNode.file [5])
        [⟨"a", "pa", Source.tlpdb, none, some 2⟩,
         ⟨"b", "pb", Source.tlpdb, none, some 1⟩]).Pairwise
      (fun a b => fileEntryLE a b = true) :=
  claim_C5_ordering.1 (fun _ => FsNode.file [5])
    [⟨"a", "pa", Source.tlpdb, none, some 2⟩, ⟨"b", "pb", Source.tlpdb, none, some 1⟩]
    _ (by decide)

/-- C4 amended: create_zip is order independent — hence byte-reproducible,
the archive bytes being a fixed function (serializeZip) of the written
member sequence — PROVIDED no two entries of the target set share the
(revision, path) sort key (true of every set the missing operation produces,
whose entries have pairwise-distinct paths); and every written member has
the pinned date, permissions, platform tag, compression method and level. -/
theorem claim_C4_determinism :
    ∀ (fs : String → FsNode) (l1 l2 : List FileEntry),
      l1.Perm l2 → l1.Pairwise (fun a b => zipSortKey a ≠ zipSortKey b) →
      create_zip fs l1 = create_zip fs l2 ∧
      (∀ es, create_zip fs l1 = .ok es → ∀ ze ∈ es,
        ze.date_time = ZIP_EPOCH ∧ ze.external_attr = 0o444 <<< 16 ∧
        ze.create_system = 3 ∧ ze.compress_type = ZIP_DEFLATED ∧ ze.compresslevel = 9) := by
  intro fs l1 l2 hperm hkeys
  have hsymm : ∀ {x y : FileEntry},
      (fun a b : FileEntry => zipSortKey a ≠ zipSortKey b) x y →
      (fun a b : FileEntry => zipSortKey a ≠ zipSortKey b) y x :=
    fun h he => h he.symm
  have hk1 : (sortedFiles l1).Pairwise (fun a b => zipSortKey a ≠ zipSortKey b) :=
    ((pySorted_perm fileEntryLE l1).pairwise_iff hsymm).mpr hkeys
  have hincomp : (sortedFiles l1).Pairwise
      (fun a b => ¬(fileEntryLE a b = true ∧ fileEntryLE b a = true)) := by
    refine hk1.imp ?_
    intro a b hne hboth
    exact hne (fileEntryLE_antisymm_key hboth.1 hboth.2)
  have hsp : (sortedFiles l1).Perm (sortedFiles l2) :=
    ((pySorted_perm fileEntryLE l1).trans hperm).trans (pySorted_perm fileEntryLE l2).symm
  have hsort : sortedFiles l1 = sortedFiles l2 :=
    sorted_perm_eq (sortedFiles l1) (sortedFiles l2) hsp
      (pairwise_pySorted fileEntryLE_total (fun a b c => fileEntryLE_trans) l1)
      (pairwise_pySorted fileEntryLE_total (fun a b c => fileEntryLE_trans) l2)
      hincomp
  constructor
  · rw [create_zip, create_zip, hsort]
  · intro es hok ze hze
    have heq := create_zip_ok_eq hok
    rw [heq] at hze
    rcases List.mem_map.mp hze with ⟨e, _, hmk⟩
    rw [← hmk]
    exact ⟨rfl, rfl, rfl, rfl, rfl⟩

/-- Counterexample to C4 as stated: two target sets equal as sets (the two
iteration orders of one set) whose entries share the (revision, path) sort
key; Python's sorted() is stable, so the two orders produce different member
sequences, hence different archive bytes. -/
theorem claim_C4_counterexample :
    ([⟨"a", "p", Source.tlpdb, none, some 1⟩,
      ⟨"b", "p", Source.tlpdb, none, some 1⟩] : List FileEntry).Perm
      [⟨"b", "p", Source.tlpdb, none, some 1⟩, ⟨"a", "p", Source.tlpdb, none, some 1⟩] ∧
    create_zip (fun q => if q = "p" then FsNode.file [3] else FsNode.missing)
        [⟨"a", "p", Source.tlpdb, none, some 1⟩, ⟨"b", "p", Source.tlpdb, none, some 1⟩] ≠
      create_zip (fun q => if q = "p" then FsNode.file [3] else FsNode.missing)
        [⟨"b", "p", Source.tlpdb, none, some 1⟩, ⟨"a", "p", Source.tlpdb, none, some 1⟩] :=
  ⟨by decide, by decide⟩

/-- Witness for the amended C4: with distinct paths the two iteration orders
produce identical archives. -/
theorem claim_C4_determinism_witness :
    create_zip (fun _ => FsNode.file [3])
        [⟨"a", "pa", Source.tlpdb, none, some 1⟩, ⟨"b", "pb", Source.tlpdb, none, some 1⟩] =
      create_zip (fun _ => FsNode.file [3])
        [⟨"b", "pb", Source.tlpdb, none, some 1⟩, ⟨"a", "pa", Source.tlpdb, none, some 1⟩] :=
  (claim_C4_determinism (fun _ => FsNode.file [3])
    [⟨"a", "pa", Source.tlpdb, none, some 1⟩, ⟨"b", "pb", Source.tlpdb, none, some 1⟩]
    [⟨"b", "pb", Source.tlpdb, none, some 1⟩, ⟨"a", "pa", Source.tlpdb, none, some 1⟩]
    (by decide) (by decide)).1

/-- C10: create_zip accepts revisionless entries without failing — it still
writes the archive when every source path exists — sorts them with -1 in
place of the missing revision so that every revisionless entry precedes every
entry with a nonnegative revision, and writes a revisionless regular file as
an ordinary member. -/
theorem claim_C10_revisionless :
    ∀ (fs : String → FsNode) (files : List FileEntry),
      ((∀ e ∈ files, fs e.path ≠ FsNode.missing) → (create_zip fs files).isOk = true) ∧
      (∀ (i j : Fin (sortedFiles files).length) (r : Int),
        ((sortedFiles files).get i).revision = none →
        ((sortedFiles files).get j).revision = some r → 0 ≤ r → (i : Nat) < (j : Nat)) ∧
      (∀ (e : FileEntry) (b : List Nat) (es : List ZipEntry),
        e ∈ files → e.revision = none → fs e.path = FsNode.file b →
        create_zip fs files = .ok es → mkZipEntry e b ∈ es) := by
  intro fs files
  refine ⟨?_, ?_, ?_⟩
  · intro h
    rw [create_zip]
    refine (create_zip_go_isOk (sortedFiles files)).mpr ?_
    intro e he
    exact h e ((pySorted_perm fileEntryLE files).subset he)
  · intro i j r hi hj hr
    have hpw : (sortedFiles files).Pairwise (fun a b => fileEntryLE a b = true) :=
      pairwise_pySorted fileEntryLE_total (fun a b c => fileEntryLE_trans) files
    rw [List.pairwise_iff_get] at hpw
    by_contra hij
    rcases Nat.lt_or_ge (j : Nat) (i : Nat) with hlt | hge
    · have hle := hpw j i hlt
      have hle2 : pairLE
          (((sortedFiles files).get j).revision.getD (-1), ((sortedFiles files).get j).path)
          (((sortedFiles files).get i).revision.getD (-1), ((sortedFiles files).get i).path) =
            true := hle
      rw [hi, hj] at hle2
      simp only [Option.getD_some, Option.getD_none, pairLE, Bool.or_eq_true,
        Bool.and_eq_true, decide_eq_true_eq] at hle2
      rcases hle2 with h | ⟨h, _⟩
      · omega
      · omega
    · have hij2 : (i : Nat) = (j : Nat) := by omega
      have hgg : ((sortedFiles files).get i) = ((sortedFiles files).get j) := by
        congr 1
        exact Fin.ext hij2
      rw [hgg, hj] at hi
      exact Option.noConfusion hi
  · intro e b es hmem hrev hfe hok
    have heq := create_zip_ok_eq hok
    rw [heq]
    have hmem2 : e ∈ zipWrittenFiles fs files := by
      rw [zipWrittenFiles]
      refine List.mem_filter.mpr ⟨?_, ?_⟩
      · exact ((pySorted_perm fileEntryLE files).mem_iff).mpr hmem
      · simp [isFileAt, hfe]
    have hc : contentsAt fs e.path = b := by simp [contentsAt, hfe]
    exact List.mem_map.mpr ⟨e, hmem2, by rw [hc]⟩

/-- Witness for C10: a revisionless file sorts in front of a revision-5 file,
the archive is still written, and the revisionless member is in it. -/
theorem claim_C10_revisionless_witness :
    (create_zip (fun _ => FsNode.file [9])
      [⟨"n", "pn", Source.tlpdb, none, none⟩, ⟨"p", "pp", Source.tlpdb, none, some 5⟩]).isOk =
        true ∧
    (0 : Nat) < (1 : Nat) ∧
    mkZipEntry ⟨"n", "pn", Source.tlpdb, none, none⟩ [9] ∈
      [mkZipEntry ⟨"n", "pn", Source.tlpdb, none, none⟩ [9],
       mkZipEntry ⟨"p", "pp", Source.tlpdb, none, some 5⟩ [9]] :=
  ⟨(claim_C10_revisionless (fun _ => FsNode.file [9])
      [⟨"n", "pn", Source.tlpdb, none, none⟩, ⟨"p", "pp", Source.tlpdb, none, some 5⟩]).1
      (by decide),
   (claim_C10_revisionless (fun _ => FsNode.file [9])
      [⟨"n", "pn", Source.tlpdb, none, none⟩, ⟨"p", "pp", Source.tlpdb, none, some 5⟩]).2.1
      ⟨0, by decide⟩ ⟨1, by decide⟩ 5 (by decide) (by decide) (by decide),
   (claim_C10_revisionless (fun _ => FsNode.file [9])
      [⟨"n", "pn", Source.tlpdb, none, none⟩, ⟨"p", "pp", Source.tlpdb, none, some 5⟩]).2.2
      ⟨"n", "pn", Source.tlpdb, none, none⟩ [9] _ (by decide) rfl rfl (by decide)⟩

/-! ### get_found_ctan_files lemmas -/

theorem get_found_go_cons_single_file {ct : FileList} {fs : String → FsNode} {f : String}
    {te ce : FileEntry} {r : Int} {b : List Nat} (rest : FileList)
    (acc : List (String × CTANRow))
    (hct : alistLookup ct f = some [ce]) (hrev : te.revision = some r)
    (hfe : fs te.path = FsNode.file b) :
    get_found_go ct fs ((f, [te]) :: rest) acc =
      get_found_go ct fs rest
        (dictInsert acc f { path := ce.path, revision := r, hash := hash_message b }) := by
  conv_lhs => rw [get_found_go]
  rw [hct]
  simp [hrev, hfe]

theorem get_found_go_cons_single_dir {ct : FileList} {fs : String → FsNode} {f : String}
    {te ce : FileEntry} {r : Int} (rest : FileList) (acc : List (String × CTANRow))
    (hct : alistLookup ct f = some [ce]) (hrev : te.revision = some r)
    (hfe : fs te.path = FsNode.dir) :
    get_found_go ct fs ((f, [te]) :: rest) acc = get_found_go ct fs rest acc := by
  conv_lhs => rw [get_found_go]
  rw [hct]
  simp [hrev, hfe]

theorem get_found_go_cons_single_missing {ct : FileList} {fs : String → FsNode} {f : String}
    {te ce : FileEntry} {r : Int} (rest : FileList) (acc : List (String × CTANRow))
    (hct : alistLookup ct f = some [ce]) (hrev : te.revision = some r)
    (hfe : fs te.path = FsNode.missing) :
    get_found_go ct fs ((f, [te]) :: rest) acc = .error (.fileNotFound te.path) := by
  conv_lhs => rw [get_found_go]
  rw [hct]
  simp [hrev, hfe]

theorem get_found_go_cons_single_norev {ct : FileList} {fs : String → FsNode} {f : String}
    {te ce : FileEntry} (rest : FileList) (acc : List (String × CTANRow))
    (hct : alistLookup ct f = some [ce]) (hrev : te.revision = none) :
    get_found_go ct fs ((f, [te]) :: rest) acc = .error (.missingRevision f) := by
  conv_lhs => rw [get_found_go]
  rw [hct]
  simp [hrev]

theorem get_found_go_preserve (ct : FileList) (fs : String → FsNode) :
    ∀ (l : FileList) (acc out : List (String × CTANRow)) (f : String),
      (∀ p ∈ l, p.1 ≠ f) → get_found_go ct fs l acc = .ok out →
      alistLookup out f = alistLookup acc f
  | [], acc, out, f, _, hok => by
    simp only [get_found_go, Except.ok.injEq] at hok
    rw [← hok]
  | (g, tes) :: rest, acc, out, f, hne, hok => by
    have hgf : g ≠ f := hne (g, tes) (List.mem_cons_self _ _)
    have hrest : ∀ p ∈ rest, p.1 ≠ f := fun p hp => hne p (List.mem_cons_of_mem _ hp)
    unfold get_found_go at hok
    split at hok
    · exact get_found_go_preserve ct fs rest acc out f hrest hok
    · split at hok
      · exact get_found_go_preserve ct fs rest acc out f hrest hok
      · split at hok
        · exact absurd hok (by simp)
        · split at hok
          · exact absurd hok (by simp)
          · split at hok
            · exact absurd hok (by simp)
            · split at hok
              · rw [get_found_go_preserve ct fs rest _ out f hrest hok,
                  alistLookup_dictInsert, if_neg (fun h : f = g => hgf h.symm)]
              · exact get_found_go_preserve ct fs rest acc out f hrest hok
              · exact absurd hok (by simp)

theorem get_found_go_nodup (ct : FileList) (fs : String → FsNode) :
    ∀ (l : FileList) (acc out : List (String × CTANRow)),
      NodupKeys acc → get_found_go ct fs l acc = .ok out → NodupKeys out
  | [], acc, out, hnd, hok => by
    simp only [get_found_go, Except.ok.injEq] at hok
    rw [← hok]
    exact hnd
  | (g, tes) :: rest, acc, out, hnd, hok => by
    unfold get_found_go at hok
    split at hok
    · exact get_found_go_nodup ct fs rest acc out hnd hok
    · split at hok
      · exact get_found_go_nodup ct fs rest acc out hnd hok
      · split at hok
        · exact absurd hok (by simp)
        · split at hok
          · exact absurd hok (by simp)
          · split at hok
            · exact absurd hok (by simp)
            · split at hok
              · exact get_found_go_nodup ct fs rest _ out
                  (nodupKeys_dictInsert acc g _ hnd) hok
              · exact get_found_go_nodup ct fs rest acc out hnd hok
              · exact absurd hok (by simp)

theorem get_found_go_revision_ok (ct : FileList) (fs : String → FsNode) :
    ∀ (l : FileList) (acc out : List (String × CTANRow)) (f : String) (te ce : FileEntry),
      get_found_go ct fs l acc = .ok out → (f, [te]) ∈ l →
      alistLookup ct f = some [ce] → te.revision ≠ none
  | [], _, _, f, te, ce, _, hmem, _ => absurd hmem (by simp)
  | (g, tes) :: rest, acc, out, f, te, ce, hok, hmem, hct => by
    rcases List.mem_cons.mp hmem with hhd | htl
    · rw [Prod.mk.injEq] at hhd
      rcases hhd with ⟨hg, hts⟩
      subst hg
      subst hts
      intro hrev
      rw [get_found_go_cons_single_norev rest acc hct hrev] at hok
      exact absurd hok (by simp)
    · unfold get_found_go at hok
      split at hok
      · exact get_found_go_revision_ok ct fs rest acc out f te ce hok htl hct
      · split at hok
        · exact get_found_go_revision_ok ct fs rest acc out f te ce hok htl hct
        · split at hok
          · exact absurd hok (by simp)
          · split at hok
            · exact absurd hok (by simp)
            · split at hok
              · exact absurd hok (by simp)
              · split at hok
                · exact get_found_go_revision_ok ct fs rest _ out f te ce hok htl hct
                · exact get_found_go_revision_ok ct fs rest acc out f te ce hok htl hct
                · exact absurd hok (by simp)

theorem get_found_go_reaches (ct : FileList) (fs : String → FsNode) :
    ∀ (l : FileList) (acc out : List (String × CTANRow)) (f : String) (te ce : FileEntry)
      (r : Int),
      NodupKeys l → get_found_go ct fs l acc = .ok out → (f, [te]) ∈ l →
      alistLookup ct f = some [ce] → te.revision = some r → fs te.path ≠ FsNode.dir →
      ∃ b, fs te.path = FsNode.file b ∧
        alistLookup out f = some { path := ce.path, revision := r, hash := hash_message b }
  | [], _, _, f, te, ce, r, _, _, hmem, _, _, _ => absurd hmem (by simp)
  | (g, tes) :: rest, acc, out, f, te, ce, r, hnd, hok, hmem, hct, hrev, hdir => by
    rcases List.mem_cons.mp hmem with hhd | htl
    · rw [Prod.mk.injEq] at hhd
      rcases hhd with ⟨hg, hts⟩
      subst hg
      subst hts
      have hrestne : ∀ p ∈ rest, p.1 ≠ f := by
        intro p hp he
        have hnodup := List.nodup_cons.mp hnd
        have hp1 : p.1 ∈ rest.map Prod.fst := List.mem_map_of_mem Prod.fst hp
        exact hnodup.1 (he ▸ hp1)
      cases hfe : fs te.path with
      | file b =>
        rw [get_found_go_cons_single_file rest acc hct hrev hfe] at hok
        refine ⟨b, rfl, ?_⟩
        rw [get_found_go_preserve ct fs rest _ out f hrestne hok,
          alistLookup_dictInsert, if_pos rfl]
      | dir => exact absurd hfe hdir
      | missing =>
        rw [get_found_go_cons_single_missing rest acc hct hrev hfe] at hok
        exact absurd hok (by simp)
    · unfold get_found_go at hok
      have hnd2 := (List.nodup_cons.mp hnd).2
      split at hok
      · exact get_found_go_reaches ct fs rest acc out f te ce r hnd2 hok htl hct hrev hdir
      · split at hok
        · exact get_found_go_reaches ct fs rest acc out f te ce r hnd2 hok htl hct hrev hdir
        · split at hok
          · exact absurd hok (by simp)
          · split at hok
            · exact absurd hok (by simp)
            · split at hok
              · exact absurd hok (by simp)
              · split at hok
                · exact get_found_go_reaches ct fs rest _ out f te ce r hnd2 hok htl
                    hct hrev hdir
                · exact get_found_go_reaches ct fs rest acc out f te ce r hnd2 hok htl
                    hct hrev hdir
                · exact absurd hok (by simp)

theorem get_found_go_sound (ct : FileList) (fs : String → FsNode) :
    ∀ (l : FileList) (acc out : List (String × CTANRow)),
      get_found_go ct fs l acc = .ok out →
      ∀ (g : String) (row : CTANRow), alistLookup out g = some row →
        alistLookup acc g = some row ∨
        ∃ te ce r b, (g, [te]) ∈ l ∧ alistLookup ct g = some [ce] ∧
          te.revision = some r ∧ fs te.path = FsNode.file b ∧
          row = { path := ce.path, revision := r, hash := hash_message b }
  | [], acc, out, hok, g, row, hlk => by
    simp only [get_found_go, Except.ok.injEq] at hok
    rw [← hok] at hlk
    exact Or.inl hlk
  | (g0, tes) :: rest, acc, out, hok, g, row, hlk => by
    unfold get_found_go at hok
    split at hok
    · rcases get_found_go_sound ct fs rest acc out hok g row hlk with h | ⟨te, ce, r, b, h⟩
      · exact Or.inl h
      · exact Or.inr ⟨te, ce, r, b, List.mem_cons_of_mem _ h.1, h.2.1, h.2.2.1, h.2.2.2.1,
          h.2.2.2.2⟩
    · split at hok
      · rcases get_found_go_sound ct fs rest acc out hok g row hlk with h | ⟨te, ce, r, b, h⟩
        · exact Or.inl h
        · exact Or.inr ⟨te, ce, r, b, List.mem_cons_of_mem _ h.1, h.2.1, h.2.2.1, h.2.2.2.1,
            h.2.2.2.2⟩
      · split at hok
        · exact absurd hok (by simp)
        · split at hok
          · exact absurd hok (by simp)
          · split at hok
            · exact absurd hok (by simp)
            · split at hok
              · rename_i x0 tes0 ce0 ces2 hctg0 tesC teD restE hlen optG revH hrevI fsJ bK hfeL
                rcases get_found_go_sound ct fs rest _ out hok g row hlk with
                  h | ⟨te, ce, r, b, h1, h2, h3, h4, h5⟩
                · rw [alistLookup_dictInsert] at h
                  by_cases hg : g = g0
                  · subst hg
                    rw [if_pos rfl] at h
                    have hrow := Option.some.inj h
                    have hces2 : ces2 = [] := by
                      cases ces2 with
                      | nil => rfl
                      | cons y ys => simp at hlen
                    have hre : restE = [] := by
                      cases restE with
                      | nil => rfl
                      | cons y ys => simp at hlen
                    subst hces2
                    subst hre
                    exact Or.inr ⟨teD, ce0, revH, bK, List.mem_cons_self _ _, hctg0, hrevI,
                      hfeL, hrow.symm⟩
                  · rw [if_neg hg] at h
                    exact Or.inl h
                · exact Or.inr ⟨te, ce, r, b, List.mem_cons_of_mem _ h1, h2, h3, h4, h5⟩
              · rcases get_found_go_sound ct fs rest acc out hok g row hlk with
                  h | ⟨te, ce, r, b, h⟩
                · exact Or.inl h
                · exact Or.inr ⟨te, ce, r, b, List.mem_cons_of_mem _ h.1, h.2.1, h.2.2.1,
                    h.2.2.2.1, h.2.2.2.2⟩
              · exact absurd hok (by simp)

/-- Counterexample to C7 as stated: a filename present in both indices with
exactly one record each and a present revision, whose local path names a
directory — get_found_ctan_files returns normally and emits nothing for it
(the IsADirectoryError is caught and the candidate dropped), where the claim
says a Remote candidate is emitted. -/
theorem claim_C7_counterexample :
    alistLookup ([("f.sty", [⟨"f.sty", "tex/latex/p/f.sty", Source.tlpdb, none, some 3⟩])] :
        FileList) "f.sty" =
      some [⟨"f.sty", "tex/latex/p/f.sty", Source.tlpdb, none, some 3⟩] ∧
    alistLookup
        ([("f.sty", [⟨"f.sty", "macros/latex/p/f.sty", Source.ctan, some 20240101, none⟩])] :
          FileList) "f.sty" =
      some [⟨"f.sty", "macros/latex/p/f.sty", Source.ctan, some 20240101, none⟩] ∧
    (⟨"f.sty", "tex/latex/p/f.sty", Source.tlpdb, none, some 3⟩ : FileEntry).revision =
      some 3 ∧
    get_found_ctan_files
        [("f.sty", [⟨"f.sty", "tex/latex/p/f.sty", Source.tlpdb, none, some 3⟩])]
        [("f.sty", [⟨"f.sty", "macros/latex/p/f.sty", Source.ctan, some 20240101, none⟩])]
        (fun p => if p = "tex/latex/p/f.sty" then FsNode.dir else FsNode.missing) = .ok [] :=
  ⟨by decide, by decide, by decide, by decide⟩

/-- C7 amended: on a successful run of get_found_ctan_files over a tlpdb
index with unique keys, (completeness) every filename with exactly one record
in each index, a present tlpdb revision and a local path that is not a
directory is emitted as a CTANRow carrying the ctan path, the tlpdb revision
and the digest of the local file bytes — a directory path is skipped and a
missing file is fatal; (soundness) everything emitted arose exactly that way
from a filename present in both indices with unique records; and (fatality)
no such filename can lack a revision, since that raises instead of
returning. -/
theorem claim_C7_found :
    ∀ (tl ct : FileList) (fs : String → FsNode) (out : List (String × CTANRow)),
      NodupKeys tl → get_found_ctan_files tl ct fs = .ok out →
      (∀ (f : String) (te ce : FileEntry) (r : Int),
        alistLookup tl f = some [te] → alistLookup ct f = some [ce] →
        te.revision = some r → fs te.path ≠ FsNode.dir →
        ∃ b, fs te.path = FsNode.file b ∧
          alistLookup out f = some { path := ce.path, revision := r, hash := hash_message b }) ∧
      (∀ (g : String) (row : CTANRow), alistLookup out g = some row →
        ∃ te ce r b, alistLookup tl g = some [te] ∧ alistLookup ct g = some [ce] ∧
          te.revision = some r ∧ fs te.path = FsNode.file b ∧
          row = { path := ce.path, revision := r, hash := hash_message b }) ∧
      (∀ (f : String) (te ce : FileEntry),
        alistLookup tl f = some [te] → alistLookup ct f = some [ce] →
        te.revision ≠ none) := by
  intro tl ct fs out hnd hok
  refine ⟨?_, ?_, ?_⟩
  · intro f te ce r h1 h2 h3 h4
    exact get_found_go_reaches ct fs tl [] out f te ce r hnd hok
      (alistLookup_some_mem h1) h2 h3 h4
  · intro g row hlk
    rcases get_found_go_sound ct fs tl [] out hok g row hlk with h | ⟨te, ce, r, b, h⟩
    · exact absurd h (by simp [alistLookup])
    · exact ⟨te, ce, r, b, alistLookup_of_nodup_mem hnd h.1, h.2.1, h.2.2.1, h.2.2.2.1,
        h.2.2.2.2⟩
  · intro f te ce h1 h2
    exact get_found_go_revision_ok ct fs tl [] out f te ce hok
      (alistLookup_some_mem h1) h2

/-- Witness for the amended C7 at a concrete pair of singleton indices with a
regular file: the CTANRow with the ctan path, tlpdb revision 4 and the digest
of the file bytes is emitted. -/
theorem claim_C7_found_witness :
    ∃ b, (fun (_ : String) => FsNode.file [1, 2]) "tex/latex/w/w.sty" = FsNode.file b ∧
      alistLookup
        [("w.sty",
          ({ path := "macros/w/w.sty", revision := 4, hash := hash_message [1, 2] } : CTANRow))]
        "w.sty" = some { path := "macros/w/w.sty", revision := 4, hash := hash_message b } :=
  (claim_C7_found
    [("w.sty", [⟨"w.sty", "tex/latex/w/w.sty", Source.tlpdb, none, some 4⟩])]
    [("w.sty", [⟨"w.sty", "macros/w/w.sty", Source.ctan, some 20240101, none⟩])]
    (fun _ => FsNode.file [1, 2])
    [("w.sty", { path := "macros/w/w.sty", revision := 4, hash := hash_message [1, 2] })]
    (by unfold NodupKeys; decide) (by decide)).1 "w.sty"
    ⟨"w.sty", "tex/latex/w/w.sty", Source.tlpdb, none, some 4⟩
    ⟨"w.sty", "macros/w/w.sty", Source.ctan, some 20240101, none⟩ 4
    (by decide) (by decide) rfl (by decide)

/-- Counterexample to C3 as stated: a filename present in both catalog
indices with exactly one record in each and a present revision, whose local
path names a directory — the full pipeline completes and produces a table
WITHOUT any entry for that filename (the Remote candidate is dropped at the
hashing step), where the claim promises exactly one entry. -/
theorem claim_C3_counterexample :
    alistLookup ([("g.sty", [⟨"g.sty", "tex/latex/g/g.sty", Source.tlpdb, none, some 3⟩])] :
        FileList) "g.sty" =
      some [⟨"g.sty", "tex/latex/g/g.sty", Source.tlpdb, none, some 3⟩] ∧
    alistLookup
        ([("g.sty", [⟨"g.sty", "macros/latex/g/g.sty", Source.ctan, some 20240101, none⟩])] :
          FileList) "g.sty" =
      some [⟨"g.sty", "macros/latex/g/g.sty", Source.ctan, some 20240101, none⟩] ∧
    (⟨"g.sty", "tex/latex/g/g.sty", Source.tlpdb, none, some 3⟩ : FileEntry).revision =
      some 3 ∧
    run_database
        [("g.sty", [⟨"g.sty", "tex/latex/g/g.sty", Source.tlpdb, none, some 3⟩])] []
        [("g.sty", [⟨"g.sty", "macros/latex/g/g.sty", Source.ctan, some 20240101, none⟩])]
        (fun p => if p = "tex/latex/g/g.sty" then FsNode.dir else FsNode.missing) = .ok [] ∧
    List.count "g.sty" (keysOf ([] : List (String × DatabaseRow))) = 0 :=
  ⟨by decide, by decide, by decide, by decide, by decide⟩

/-- C3 amended: for every filename present in both catalog indices with
exactly one record in each, whose tlpdb record carries a revision AND whose
local path does not name a directory (a directory candidate is silently
dropped; a missing file aborts the run), a completed pipeline run yields a
table holding exactly one entry for that filename; and no filename ever maps
to more than one entry. -/
theorem claim_C3_table :
    ∀ (allT zipT ctan : FileList) (fs : String → FsNode)
      (table : List (String × DatabaseRow)) (f : String) (e c : FileEntry) (r : Int),
      NodupKeys allT →
      run_database allT zipT ctan fs = .ok table →
      alistLookup allT f = some [e] → alistLookup ctan f = some [c] →
      e.revision = some r → fs e.path ≠ FsNode.dir →
      (∃ row, alistLookup table f = some row) ∧
      List.count f (keysOf table) = 1 ∧
      ∀ g, List.count g (keysOf table) ≤ 1 := by
  intro allT zipT ctan fs table f e c r hnd hok h1 h2 h3 h4
  unfold run_database at hok
  cases hm : get_missing_ctan_files zipT ctan with
  | error err => rw [hm] at hok; exact absurd hok (by simp [Bind.bind, Except.bind])
  | ok missing =>
    rw [hm] at hok
    simp only [Bind.bind, Except.bind] at hok
    cases hz : create_zip fs missing with
    | error err => rw [hz] at hok; exact absurd hok (by simp)
    | ok zipEntries =>
      rw [hz] at hok
      simp only [] at hok
      cases hf : get_found_ctan_files allT ctan fs with
      | error err => rw [hf] at hok; exact absurd hok (by simp)
      | ok found =>
        rw [hf] at hok
        simp only [] at hok
        cases hg : get_zip_files zipT (serializeZip zipEntries 0).1
            (serializeZip zipEntries 0).2 with
        | error err => rw [hg] at hok; exact absurd hok (by simp)
        | ok zipRows =>
          rw [hg] at hok
          simp only [pure, Except.pure, Except.ok.injEq] at hok
          have hfound_nd : NodupKeys found :=
            get_found_go_nodup ctan fs allT [] found (by simp [NodupKeys]) hf
          have hzip_nd : NodupKeys zipRows :=
            get_zip_go_nodup zipT (serializeZip zipEntries 0).1 (serializeZip zipEntries 0).2
              [] zipRows (by simp [NodupKeys]) hg
          have htbl_nd : NodupKeys table := by
            rw [← hok]
            exact nodupKeys_dictUnion _ _ (nodupKeys_mapVal DatabaseRow.ctanRow found hfound_nd)
          have hreach := get_found_go_reaches ctan fs allT [] found f e c r hnd hf
            (alistLookup_some_mem h1) h2 h3 h4
          rcases hreach with ⟨b, _, hlkf⟩
          have hmemf : memKeys found f = true := by
            rw [memKeys, hlkf]
            rfl
          have hmemt : memKeys table f = true := by
            rw [← hok]
            refine memKeys_dictUnion_left _ _ f ?_
            rw [memKeys_mapVal DatabaseRow.ctanRow found f]
            exact hmemf
          have hmemk : f ∈ keysOf table := (memKeys_iff_mem_keysOf table f).mp hmemt
          refine ⟨?_, ?_, ?_⟩
          · rcases Option.isSome_iff_exists.mp hmemt with ⟨row, hrow⟩
            exact ⟨row, hrow⟩
          · exact List.count_eq_one_of_mem htbl_nd hmemk
          · intro g
            exact List.nodup_iff_count_le_one.mp htbl_nd g

/-- Witness for the amended C3 at a concrete pipeline run: the table holds
exactly one entry for the filename present in both indices. -/
theorem claim_C3_table_witness :
    (∃ row, alistLookup
      [("w.sty", DatabaseRow.ctanRow
        { path := "macros/w/w.sty", revision := 4, hash := hash_message [1, 2] })]
      "w.sty" = some row) ∧
    List.count "w.sty" (keysOf
      [("w.sty", DatabaseRow.ctanRow
        { path := "macros/w/w.sty", revision := 4, hash := hash_message [1, 2] })]) = 1 :=
  ⟨(claim_C3_table
      [("w.sty", [⟨"w.sty", "tex/latex/w/w.sty", Source.tlpdb, none, some 4⟩])] []
      [("w.sty", [⟨"w.sty", "macros/w/w.sty", Source.ctan, some 20240101, none⟩])]
      (fun _ => FsNode.file [1, 2])
      [("w.sty", DatabaseRow.ctanRow
        { path := "macros/w/w.sty", revision := 4, hash := hash_message [1, 2] })]
      "w.sty" ⟨"w.sty", "tex/latex/w/w.sty", Source.tlpdb, none, some 4⟩
      ⟨"w.sty", "macros/w/w.sty", Source.ctan, some 20240101, none⟩ 4
      (by unfold NodupKeys; decide) (by decide) (by decide) (by decide) rfl
      (by decide)).1,
   (claim_C3_table
      [("w.sty", [⟨"w.sty", "tex/latex/w/w.sty", Source.tlpdb, none, some 4⟩])] []
      [("w.sty", [⟨"w.sty", "macros/w/w.sty", Source.ctan, some 20240101, none⟩])]
      (fun _ => FsNode.file [1, 2])
      [("w.sty", DatabaseRow.ctanRow
        { path := "macros/w/w.sty", revision := 4, hash := hash_message [1, 2] })]
      "w.sty" ⟨"w.sty", "tex/latex/w/w.sty", Source.tlpdb, none, some 4⟩
      ⟨"w.sty", "macros/w/w.sty", Source.ctan, some 20240101, none⟩ 4
      (by unfold NodupKeys; decide) (by decide) (by decide) (by decide) rfl
      (by decide)).2.1⟩

/-! ### get_missing_ctan_files lemmas -/

theorem get_missing_go_spec (ct : FileList) :
    ∀ l : FileList, (∀ p ∈ l, p.2 ≠ []) →
      ∃ out, get_missing_go ct l = .ok out ∧
        ∀ e : FileEntry, e ∈ out ↔ ∃ f, (f, [e]) ∈ l ∧ memKeys ct f = false ∧
          extension f ∉ IGNORE_EXTENSIONS
  | [], _ => ⟨[], rfl, by simp⟩
  | (f0, es) :: rest, hne => by
    rcases get_missing_go_spec ct rest (fun p hp => hne p (List.mem_cons_of_mem _ hp)) with
      ⟨out, hout, hiff⟩
    by_cases hmem : memKeys ct f0 = true
    · refine ⟨out, ?_, ?_⟩
      · show get_missing_go ct ((f0, es) :: rest) = .ok out
        unfold get_missing_go
        rw [if_pos hmem]
        exact hout
      · intro e
        rw [hiff e]
        constructor
        · rintro ⟨f, hf, hc, hx⟩
          exact ⟨f, List.mem_cons_of_mem _ hf, hc, hx⟩
        · rintro ⟨f, hf, hc, hx⟩
          rcases List.mem_cons.mp hf with h | h
          · rw [Prod.mk.injEq] at h
            rcases h with ⟨h1, _⟩
            subst h1
            rw [hc] at hmem
            exact absurd hmem (by simp)
          · exact ⟨f, h, hc, hx⟩
    · by_cases hext : extension f0 ∈ IGNORE_EXTENSIONS
      · refine ⟨out, ?_, ?_⟩
        · show get_missing_go ct ((f0, es) :: rest) = .ok out
          unfold get_missing_go
          rw [if_neg hmem, if_pos hext]
          exact hout
        · intro e
          rw [hiff e]
          constructor
          · rintro ⟨f, hf, hc, hx⟩
            exact ⟨f, List.mem_cons_of_mem _ hf, hc, hx⟩
          · rintro ⟨f, hf, hc, hx⟩
            rcases List.mem_cons.mp hf with h | h
            · rw [Prod.mk.injEq] at h
              rcases h with ⟨h1, _⟩
              subst h1
              exact absurd hext hx
            · exact ⟨f, h, hc, hx⟩
      · cases es with
        | nil => exact absurd rfl (hne (f0, []) (List.mem_cons_self _ _))
        | cons e0 es2 =>
          cases es2 with
          | nil =>
            refine ⟨e0 :: out, ?_, ?_⟩
            · show get_missing_go ct ((f0, [e0]) :: rest) = .ok (e0 :: out)
              unfold get_missing_go
              rw [if_neg hmem, if_neg hext]
              simp only [Bind.bind, Except.bind, hout]
            · intro e
              rw [List.mem_cons, hiff e]
              constructor
              · rintro (he | ⟨f, hf, hc, hx⟩)
                · subst he
                  exact ⟨f0, List.mem_cons_self _ _, by simpa using hmem, hext⟩
                · exact ⟨f, List.mem_cons_of_mem _ hf, hc, hx⟩
              · rintro ⟨f, hf, hc, hx⟩
                rcases List.mem_cons.mp hf with h | h
                · rw [Prod.mk.injEq] at h
                  rcases h with ⟨h1, h2⟩
                  rcases List.cons.inj h2 with ⟨h3, _⟩
                  exact Or.inl h3
                · exact Or.inr ⟨f, h, hc, hx⟩
          | cons e1 es3 =>
            refine ⟨out, ?_, ?_⟩
            · show get_missing_go ct ((f0, e0 :: e1 :: es3) :: rest) = .ok out
              unfold get_missing_go
              rw [if_neg hmem, if_neg hext]
              exact hout
            · intro e
              rw [hiff e]
              constructor
              · rintro ⟨f, hf, hc, hx⟩
                exact ⟨f, List.mem_cons_of_mem _ hf, hc, hx⟩
              · rintro ⟨f, hf, hc, hx⟩
                rcases List.mem_cons.mp hf with h | h
                · rw [Prod.mk.injEq] at h
                  rcases h with ⟨_, h2⟩
                  rcases List.cons.inj h2 with ⟨_, h4⟩
                  exact absurd h4 (by simp)
                · exact ⟨f, h, hc, hx⟩

theorem get_missing_go_mem (ct : FileList) :
    ∀ (l : FileList) (out : List FileEntry), get_missing_go ct l = .ok out →
      ∀ e ∈ out, ∃ f, (f, [e]) ∈ l ∧ memKeys ct f = false ∧
        extension f ∉ IGNORE_EXTENSIONS
  | [], out, hok, e, hmem => by
    simp only [get_missing_go, Except.ok.injEq] at hok
    rw [← hok] at hmem
    exact absurd hmem (by simp)
  | (f0, es) :: rest, out, hok, e, hmem => by
    unfold get_missing_go at hok
    split at hok
    · rcases get_missing_go_mem ct rest out hok e hmem with ⟨f, hf, hc, hx⟩
      exact ⟨f, List.mem_cons_of_mem _ hf, hc, hx⟩
    · split at hok
      · rcases get_missing_go_mem ct rest out hok e hmem with ⟨f, hf, hc, hx⟩
        exact ⟨f, List.mem_cons_of_mem _ hf, hc, hx⟩
      · split at hok
        · exact absurd hok (by simp)
        · rename_i hmemF hextF e0 hes
          cases hgo : get_missing_go ct rest with
          | error err =>
            rw [hgo] at hok
            exact absurd hok (by simp [Bind.bind, Except.bind])
          | ok out2 =>
            rw [hgo] at hok
            simp only [Bind.bind, Except.bind, Except.ok.injEq] at hok
            rw [← hok] at hmem
            rcases List.mem_cons.mp hmem with he | he
            · subst he
              refine ⟨f0, ?_, by simpa using hmemF, hextF⟩
              exact List.mem_cons_self _ _
            · rcases get_missing_go_mem ct rest out2 hgo e he with ⟨f, hf, hc, hx⟩
              exact ⟨f, List.mem_cons_of_mem _ hf, hc, hx⟩
        · rcases get_missing_go_mem ct rest out hok e hmem with ⟨f, hf, hc, hx⟩
          exact ⟨f, List.mem_cons_of_mem _ hf, hc, hx⟩

/-! ### filelist_from_tlpdb lemmas -/

theorem memKeys_dictAppendEntry :
    ∀ (l : FileList) (k : String) (e : FileEntry) (g : String),
      memKeys (dictAppendEntry l k e) g = true → g = k ∨ memKeys l g = true
  | [], k, e, g, h => by
    simp only [dictAppendEntry, memKeys, alistLookup] at h
    by_cases hg : k = g
    · exact Or.inl hg.symm
    · rw [if_neg hg] at h
      simp at h
  | (k1, es) :: rest, k, e, g, h => by
    by_cases h1 : k1 = k
    · subst h1
      rw [show dictAppendEntry ((k1, es) :: rest) k1 e = (k1, es ++ [e]) :: rest from by
        simp [dictAppendEntry]] at h
      simp only [memKeys, alistLookup] at h ⊢
      by_cases h2 : k1 = g
      · rw [if_pos h2]
        exact Or.inr rfl
      · rw [if_neg h2] at h
        rw [if_neg h2]
        exact Or.inr h
    · rw [show dictAppendEntry ((k1, es) :: rest) k e = (k1, es) :: dictAppendEntry rest k e
        from by simp [dictAppendEntry, h1]] at h
      simp only [memKeys, alistLookup] at h ⊢
      by_cases h2 : k1 = g
      · rw [if_pos h2]
        exact Or.inr rfl
      · rw [if_neg h2] at h
        rw [if_neg h2]
        exact memKeys_dictAppendEntry rest k e g h

theorem dictAppendEntry_inv :
    ∀ (l : FileList) (k : String) (e : FileEntry),
      (∀ p ∈ l, ∀ e2 ∈ p.2, e2.filename = p.1) → e.filename = k →
      ∀ p ∈ dictAppendEntry l k e, ∀ e2 ∈ p.2, e2.filename = p.1
  | [], k, e, _, hek, p, hp, e2, he2 => by
    simp only [dictAppendEntry, List.mem_singleton] at hp
    subst hp
    simp only [List.mem_singleton] at he2
    subst he2
    exact hek
  | (k1, es) :: rest, k, e, hinv, hek, p, hp, e2, he2 => by
    by_cases h1 : k1 = k
    · subst h1
      rw [show dictAppendEntry ((k1, es) :: rest) k1 e = (k1, es ++ [e]) :: rest from by
        simp [dictAppendEntry]] at hp
      rcases List.mem_cons.mp hp with hph | hp2
      · subst hph
        rcases List.mem_append.mp he2 with h | h
        · exact hinv (k1, es) (List.mem_cons_self _ _) e2 h
        · rw [List.mem_singleton] at h
          subst h
          exact hek
      · exact hinv p (List.mem_cons_of_mem _ hp2) e2 he2
    · rw [show dictAppendEntry ((k1, es) :: rest) k e = (k1, es) :: dictAppendEntry rest k e
        from by simp [dictAppendEntry, h1]] at hp
      rcases List.mem_cons.mp hp with hph | hp2
      · subst hph
        exact hinv (k1, es) (List.mem_cons_self _ _) e2 he2
      · exact dictAppendEntry_inv rest k e (fun q hq => hinv q (List.mem_cons_of_mem _ hq))
          hek p hp2 e2 he2

theorem tlpdbAddMatch_keys (rev : Option Int) (acc : FileList × FileList) (m : TlpdbFileMatch)
    (g : String) :
    (memKeys (tlpdbAddMatch rev acc m).1 g = true → m.filename = g ∨ memKeys acc.1 g = true) ∧
    (memKeys (tlpdbAddMatch rev acc m).2 g = true → m.filename = g ∨ memKeys acc.2 g = true) := by
  constructor
  · intro h
    rcases memKeys_dictAppendEntry acc.1 m.filename _ g h with h | h
    · exact Or.inl h.symm
    · exact Or.inr h
  · intro h
    simp only [tlpdbAddMatch] at h
    split at h
    · rcases memKeys_dictAppendEntry acc.2 m.filename _ g h with h | h
      · exact Or.inl h.symm
      · exact Or.inr h
    · exact Or.inr h

theorem tlpdbAddMatch_foldl_keys (rev : Option Int) :
    ∀ (ms : List TlpdbFileMatch) (acc : FileList × FileList) (g : String),
      (memKeys (ms.foldl (tlpdbAddMatch rev) acc).1 g = true →
        memKeys acc.1 g = true ∨ ∃ m ∈ ms, m.filename = g) ∧
      (memKeys (ms.foldl (tlpdbAddMatch rev) acc).2 g = true →
        memKeys acc.2 g = true ∨ ∃ m ∈ ms, m.filename = g)
  | [], acc, g => ⟨fun h => Or.inl h, fun h => Or.inl h⟩
  | m :: ms, acc, g => by
    constructor
    · intro h
      rw [List.foldl_cons] at h
      rcases (tlpdbAddMatch_foldl_keys rev ms (tlpdbAddMatch rev acc m) g).1 h with
        h | ⟨m2, hm2, hg⟩
      · rcases (tlpdbAddMatch_keys rev acc m g).1 h with h | h
        · exact Or.inr ⟨m, List.mem_cons_self _ _, h⟩
        · exact Or.inl h
      · exact Or.inr ⟨m2, List.mem_cons_of_mem _ hm2, hg⟩
    · intro h
      rw [List.foldl_cons] at h
      rcases (tlpdbAddMatch_foldl_keys rev ms (tlpdbAddMatch rev acc m) g).2 h with
        h | ⟨m2, hm2, hg⟩
      · rcases (tlpdbAddMatch_keys rev acc m g).2 h with h | h
        · exact Or.inr ⟨m, List.mem_cons_self _ _, h⟩
        · exact Or.inl h
      · exact Or.inr ⟨m2, List.mem_cons_of_mem _ hm2, hg⟩

theorem tlpdbAddMatch_foldl_inv (rev : Option Int) :
    ∀ (ms : List TlpdbFileMatch) (acc : FileList × FileList),
      (∀ p ∈ acc.1, ∀ e2 ∈ p.2, e2.filename = p.1) →
      (∀ p ∈ acc.2, ∀ e2 ∈ p.2, e2.filename = p.1) →
      (∀ p ∈ (ms.foldl (tlpdbAddMatch rev) acc).1, ∀ e2 ∈ p.2, e2.filename = p.1) ∧
      (∀ p ∈ (ms.foldl (tlpdbAddMatch rev) acc).2, ∀ e2 ∈ p.2, e2.filename = p.1)
  | [], acc, h1, h2 => ⟨h1, h2⟩
  | m :: ms, acc, h1, h2 => by
    rw [List.foldl_cons]
    refine tlpdbAddMatch_foldl_inv rev ms _ ?_ ?_
    · exact dictAppendEntry_inv acc.1 m.filename _ h1 rfl
    · by_cases hf : charsStartWith ("tex/".toList) m.format.toList = true
      · have hz : (tlpdbAddMatch rev acc m).2 =
            dictAppendEntry acc.2 m.filename
              { filename := m.filename, path := m.path, source := .tlpdb, date := none,
                revision := rev } := by
          unfold tlpdbAddMatch
          dsimp only
          rw [if_pos hf]
        rw [hz]
        exact dictAppendEntry_inv acc.2 m.filename _ h2 rfl
      · have hz : (tlpdbAddMatch rev acc m).2 = acc.2 := by
          unfold tlpdbAddMatch
          dsimp only
          rw [if_neg hf]
        rw [hz]
        exact h2

theorem tlpdb_go_keys :
    ∀ (pkgs : List String) (acc : FileList × FileList) (all zip : FileList) (g : String),
      tlpdb_go pkgs acc = .ok (all, zip) →
      (memKeys all g = true → memKeys acc.1 g = true ∨ ∃ pkg ∈ pkgs, ∃ n,
        packageName pkg = some n ∧ n ∉ IGNORE_PACKAGES ∧
        ∃ m ∈ packageFileMatches pkg, m.filename = g) ∧
      (memKeys zip g = true → memKeys acc.2 g = true ∨ ∃ pkg ∈ pkgs, ∃ n,
        packageName pkg = some n ∧ n ∉ IGNORE_PACKAGES ∧
        ∃ m ∈ packageFileMatches pkg, m.filename = g)
  | [], acc, all, zip, g, hok => by
    simp only [tlpdb_go, Except.ok.injEq] at hok
    constructor
    · intro h
      rw [hok]
      exact Or.inl h
    · intro h
      rw [hok]
      exact Or.inl h
  | pkg :: rest, acc, all, zip, g, hok => by
    unfold tlpdb_go at hok
    split at hok
    · split at hok
      · exact absurd hok (by simp)
      · have ih := tlpdb_go_keys rest acc all zip g hok
        constructor
        · intro h
          rcases ih.1 h with h | ⟨p2, hp2, hr⟩
          · exact Or.inl h
          · exact Or.inr ⟨p2, List.mem_cons_of_mem _ hp2, hr⟩
        · intro h
          rcases ih.2 h with h | ⟨p2, hp2, hr⟩
          · exact Or.inl h
          · exact Or.inr ⟨p2, List.mem_cons_of_mem _ hp2, hr⟩
    · split at hok
      · have ih := tlpdb_go_keys rest acc all zip g hok
        constructor
        · intro h
          rcases ih.1 h with h | ⟨p2, hp2, hr⟩
          · exact Or.inl h
          · exact Or.inr ⟨p2, List.mem_cons_of_mem _ hp2, hr⟩
        · intro h
          rcases ih.2 h with h | ⟨p2, hp2, hr⟩
          · exact Or.inl h
          · exact Or.inr ⟨p2, List.mem_cons_of_mem _ hp2, hr⟩
      · rename_i name hname hnotin
        have ih := tlpdb_go_keys rest _ all zip g hok
        constructor
        · intro h
          rcases ih.1 h with h2 | ⟨p2, hp2, hr⟩
          · rcases (tlpdbAddMatch_foldl_keys _ (packageFileMatches pkg) acc g).1 h2 with
              h3 | ⟨m, hm, hmg⟩
            · exact Or.inl h3
            · exact Or.inr ⟨pkg, List.mem_cons_self _ _, name, hname, hnotin, m, hm, hmg⟩
          · exact Or.inr ⟨p2, List.mem_cons_of_mem _ hp2, hr⟩
        · intro h
          rcases ih.2 h with h2 | ⟨p2, hp2, hr⟩
          · rcases (tlpdbAddMatch_foldl_keys _ (packageFileMatches pkg) acc g).2 h2 with
              h3 | ⟨m, hm, hmg⟩
            · exact Or.inl h3
            · exact Or.inr ⟨pkg, List.mem_cons_self _ _, name, hname, hnotin, m, hm, hmg⟩
          · exact Or.inr ⟨p2, List.mem_cons_of_mem _ hp2, hr⟩

theorem tlpdb_go_inv :
    ∀ (pkgs : List String) (acc : FileList × FileList) (all zip : FileList),
      tlpdb_go pkgs acc = .ok (all, zip) →
      (∀ p ∈ acc.1, ∀ e2 ∈ p.2, e2.filename = p.1) →
      (∀ p ∈ acc.2, ∀ e2 ∈ p.2, e2.filename = p.1) →
      (∀ p ∈ all, ∀ e2 ∈ p.2, e2.filename = p.1) ∧
      (∀ p ∈ zip, ∀ e2 ∈ p.2, e2.filename = p.1)
  | [], acc, all, zip, hok, h1, h2 => by
    simp only [tlpdb_go, Except.ok.injEq] at hok
    rw [hok] at h1 h2
    exact ⟨h1, h2⟩
  | pkg :: rest, acc, all, zip, hok, h1, h2 => by
    unfold tlpdb_go at hok
    split at hok
    · split at hok
      · exact absurd hok (by simp)
      · exact tlpdb_go_inv rest acc all zip hok h1 h2
    · split at hok
      · exact tlpdb_go_inv rest acc all zip hok h1 h2
      · have hfold := tlpdbAddMatch_foldl_inv (packageRevision pkg)
          (packageFileMatches pkg) acc h1 h2
        exact tlpdb_go_inv rest _ all zip hok hfold.1 hfold.2

/-- C6: (first part) get_missing_ctan_files returns exactly the sole records
of filenames present in the source index but absent from the reference index,
minus filenames with an ignored extension and minus filenames holding more
than one record; (second part) the ignored-package subtraction is performed
upstream by filelist_from_tlpdb — a filename whose file lines occur only in
packages with ignored names is absent from both produced indices, hence no
record for it is ever emitted by the missing operation. -/
theorem claim_C6_missing :
    (∀ tl ct : FileList, NodupKeys tl → (∀ p ∈ tl, p.2 ≠ []) →
      ∃ out, get_missing_ctan_files tl ct = .ok out ∧
        ∀ e : FileEntry, e ∈ out ↔ ∃ f, alistLookup tl f = some [e] ∧
          memKeys ct f = false ∧ extension f ∉ IGNORE_EXTENSIONS) ∧
    (∀ (text : String) (all zip : FileList) (f : String),
      filelist_from_tlpdb text = .ok (all, zip) →
      (∀ pkg ∈ splitPackages text, (∃ m ∈ packageFileMatches pkg, m.filename = f) →
        ∃ n, packageName pkg = some n ∧ n ∈ IGNORE_PACKAGES) →
      memKeys all f = false ∧ memKeys zip f = false ∧
      ∀ (ct : FileList) (out : List FileEntry), get_missing_ctan_files zip ct = .ok out →
        ∀ e ∈ out, e.filename ≠ f) := by
  constructor
  · intro tl ct hnd hne
    rcases get_missing_go_spec ct tl hne with ⟨out, hout, hiff⟩
    refine ⟨out, hout, ?_⟩
    intro e
    rw [hiff e]
    constructor
    · rintro ⟨f, hf, hc, hx⟩
      exact ⟨f, alistLookup_of_nodup_mem hnd hf, hc, hx⟩
    · rintro ⟨f, hf, hc, hx⟩
      exact ⟨f, alistLookup_some_mem hf, hc, hx⟩
  · intro text all zip f hok hign
    have hall : memKeys all f = false := by
      cases hb : memKeys all f with
      | false => rfl
      | true =>
        exfalso
        rcases (tlpdb_go_keys (splitPackages text) ([], []) all zip f hok).1 hb with
          h | ⟨pkg, hpkg, n, hname, hnot, m, hm, hmf⟩
        · simp [memKeys, alistLookup] at h
        · rcases hign pkg hpkg ⟨m, hm, hmf⟩ with ⟨n2, hname2, hin2⟩
          rw [hname] at hname2
          rcases Option.some.inj hname2 with h
          exact hnot (h ▸ hin2)
    have hzip : memKeys zip f = false := by
      cases hb : memKeys zip f with
      | false => rfl
      | true =>
        exfalso
        rcases (tlpdb_go_keys (splitPackages text) ([], []) all zip f hok).2 hb with
          h | ⟨pkg, hpkg, n, hname, hnot, m, hm, hmf⟩
        · simp [memKeys, alistLookup] at h
        · rcases hign pkg hpkg ⟨m, hm, hmf⟩ with ⟨n2, hname2, hin2⟩
          rw [hname] at hname2
          rcases Option.some.inj hname2 with h
          exact hnot (h ▸ hin2)
    refine ⟨hall, hzip, ?_⟩
    intro ct out hmiss e hmem
    rcases get_missing_go_mem ct zip out hmiss e hmem with ⟨f2, hf2, _, _⟩
    have hinv := (tlpdb_go_inv (splitPackages text) ([], []) all zip hok
      (by simp) (by simp)).2
    have hef2 : e.filename = f2 := hinv (f2, [e]) hf2 e (List.mem_cons_self _ _)
    intro hef
    have hf2keys : memKeys zip f2 = true := by
      refine (memKeys_iff_mem_keysOf zip f2).mpr ?_
      exact List.mem_map_of_mem Prod.fst hf2
    rw [hef2.symm.trans hef] at hf2keys
    rw [hf2keys] at hzip
    exact Bool.noConfusion hzip

/-- Witness for C6: a file present only in the tlpdb index is emitted as the
sole missing record, and a file shipped only by the ignored package named
latex never enters the parsed index. -/
theorem claim_C6_missing_witness :
    (∃ out, get_missing_ctan_files
        [("m.sty", [⟨"m.sty", "tex/latex/m/m.sty", Source.tlpdb, none, some 7⟩])] [] =
          .ok out ∧
      ∀ e : FileEntry, e ∈ out ↔ ∃ f,
        alistLookup [("m.sty", [⟨"m.sty", "tex/latex/m/m.sty", Source.tlpdb, none, some 7⟩])]
          f = some [e] ∧
        memKeys ([] : FileList) f = false ∧ extension f ∉ IGNORE_EXTENSIONS) ∧
    memKeys ([] : FileList) "base.sty" = false :=
  ⟨claim_C6_missing.1 [("m.sty", [⟨"m.sty", "tex/latex/m/m.sty", Source.tlpdb, none, some 7⟩])]
    [] (by unfold NodupKeys; decide) (by decide),
   (claim_C6_missing.2 "name latex\nrevision 2\n texmf-dist/tex/latex/base/base.sty" [] []
    "base.sty" (by decide) (by decide)).1⟩

theorem lua_string_error_eq {s : List Nat} {err : PipelineError}
    (h : lua_string s = .error err) : err = PipelineError.unrepresentableString := by
  unfold lua_string at h
  split_ifs at h <;>
    first
    | exact (Except.error.inj h).symm
    | exact absurd h (by simp)

/-- Counterexample to C9 as stated: the key a1 is a valid bare identifier of
the target (Lua) syntax yet is emitted bracketed-and-quoted, not unquoted;
and the key do is NOT a valid bare identifier (a reserved word) yet is
emitted unquoted, so the bare/escaped split is bytes.isalpha, not
bare-identifier validity. -/
theorem claim_C9_counterexample :
    isLuaBareIdentifier "a1" = true ∧
    lua_key (utf8Bytes "a1") = .ok [91, 34, 97, 49, 34, 93] ∧
    lua_key (utf8Bytes "a1") ≠ .ok (utf8Bytes "a1") ∧
    isLuaBareIdentifier "do" = false ∧
    lua_key (utf8Bytes "do") = .ok (utf8Bytes "do") :=
  ⟨by decide, by decide, by decide, by decide, by decide⟩

/-- C9 amended: a key is emitted unquoted exactly when it is nonempty and
purely ASCII-alphabetic (bytes.isalpha); every other key is the escaped
lua_string form wrapped in square brackets; and lua_string raises a fatal
error exactly when the bytes contain no CR/LF, contain a double quote or a
backslash, contain a close-bracket pair or end in a close bracket, and also
contain the long-bracket closer — that is, exactly when no escaping scheme
of the source can represent them. -/
theorem claim_C9_escaping :
    (∀ s : List Nat, bytesIsAlpha s = true → lua_key s = .ok s) ∧
    (∀ s : List Nat, bytesIsAlpha s = false →
      (∃ ls, lua_string s = .ok ls ∧
        lua_key s = .ok (if bytesStartsWith [91] ls = true then [91, 32] ++ ls ++ [32, 93]
          else 91 :: (ls ++ [93]))) ∨
      (lua_string s = .error PipelineError.unrepresentableString ∧
        lua_key s = .error PipelineError.unrepresentableString)) ∧
    (∀ s : List Nat, (∃ err, lua_string s = .error err) ↔
      (s.contains 13 = false ∧ s.contains 10 = false ∧
       (s.contains 34 = true ∨ s.contains 92 = true) ∧
       (bytesHasSub [93, 93] s = true ∨ (s.getLast? == some 93) = true) ∧
       bytesHasSub [93, 61, 93] s = true)) := by
  refine ⟨?_, ?_, ?_⟩
  · intro s h
    unfold lua_key
    rw [if_pos h]
  · intro s hna
    unfold lua_key
    rw [if_neg (by rw [hna]; exact Bool.false_ne_true)]
    cases hls : lua_string s with
    | error err =>
      have herr := lua_string_error_eq hls
      subst herr
      refine Or.inr ⟨rfl, ?_⟩
      simp [Bind.bind, Except.bind]
    | ok ls =>
      refine Or.inl ⟨ls, rfl, ?_⟩
      by_cases hb : bytesStartsWith [91] ls = true
      · simp [Bind.bind, Except.bind, hb]
      · simp [Bind.bind, Except.bind, hb]
  · intro s
    constructor
    · rintro ⟨err, herr⟩
      have hc1 : (s.contains 13 || s.contains 10) = false := by
        cases hx : (s.contains 13 || s.contains 10) with
        | false => rfl
        | true =>
          unfold lua_string at herr
          rw [if_pos hx] at herr
          exact absurd herr (by simp)
      have hc2 : (!(s.contains 34) && !(s.contains 92)) = false := by
        cases hx : (!(s.contains 34) && !(s.contains 92)) with
        | false => rfl
        | true =>
          unfold lua_string at herr
          rw [if_neg (by rw [hc1]; simp), if_pos hx] at herr
          exact absurd herr (by simp)
      have hc3 : (!(bytesHasSub [93, 93] s) && !(s.getLast? == some 93)) = false := by
        cases hx : (!(bytesHasSub [93, 93] s) && !(s.getLast? == some 93)) with
        | false => rfl
        | true =>
          unfold lua_string at herr
          rw [if_neg (by rw [hc1]; simp), if_neg (by rw [hc2]; simp), if_pos hx] at herr
          exact absurd herr (by simp)
      have hc4 : (!(bytesHasSub [93, 61, 93] s)) = false := by
        cases hx : (!(bytesHasSub [93, 61, 93] s)) with
        | false => rfl
        | true =>
          unfold lua_string at herr
          rw [if_neg (by rw [hc1]; simp), if_neg (by rw [hc2]; simp),
            if_neg (by rw [hc3]; simp), if_pos hx] at herr
          exact absurd herr (by simp)
      have ha : s.contains 13 = false := by
        cases hx : s.contains 13 with
        | false => rfl
        | true => rw [hx] at hc1; exact absurd hc1 (by simp)
      have hb : s.contains 10 = false := by
        cases hx : s.contains 10 with
        | false => rfl
        | true => rw [hx] at hc1; exact absurd hc1 (by simp)
      have hq : s.contains 34 = true ∨ s.contains 92 = true := by
        cases hx : s.contains 34 with
        | true => exact Or.inl rfl
        | false =>
          cases hy : s.contains 92 with
          | true => exact Or.inr rfl
          | false => rw [hx, hy] at hc2; exact absurd hc2 (by simp)
      have hd : bytesHasSub [93, 93] s = true ∨ (s.getLast? == some 93) = true := by
        cases hx : bytesHasSub [93, 93] s with
        | true => exact Or.inl rfl
        | false =>
          cases hy : s.getLast? == some 93 with
          | true => exact Or.inr rfl
          | false => rw [hx, hy] at hc3; exact absurd hc3 (by simp)
      have he : bytesHasSub [93, 61, 93] s = true := by
        cases hx : bytesHasSub [93, 61, 93] s with
        | true => rfl
        | false => rw [hx] at hc4; exact absurd hc4 (by simp)
      exact ⟨ha, hb, hq, hd, he⟩
    · rintro ⟨ha, hb, hq, hd, he⟩
      refine ⟨PipelineError.unrepresentableString, ?_⟩
      unfold lua_string
      have hc1 : ¬ ((s.contains 13 || s.contains 10) = true) := by
        rw [ha, hb]
        simp
      have hc2 : ¬ ((!(s.contains 34) && !(s.contains 92)) = true) := by
        rcases hq with h | h <;> rw [h] <;> simp
      have hc3 : ¬ ((!(bytesHasSub [93, 93] s) && !(s.getLast? == some 93)) = true) := by
        rcases hd with h | h <;> rw [h] <;> simp
      have hc4 : ¬ ((!(bytesHasSub [93, 61, 93] s)) = true) := by
        rw [he]
        simp
      rw [if_neg hc1, if_neg hc2, if_neg hc3, if_neg hc4]

/-- Witness for the amended C9: the alphabetic key offset stays bare, the
key a1 goes through the bracketed escape, and a byte string containing a
quote, a close-bracket pair and the long-bracket closer is rejected. -/
theorem claim_C9_escaping_witness :
    lua_key (utf8Bytes "offset") = .ok (utf8Bytes "offset") ∧
    ((∃ ls, lua_string (utf8Bytes "a1") = .ok ls ∧
      lua_key (utf8Bytes "a1") = .ok (if bytesStartsWith [91] ls = true
        then [91, 32] ++ ls ++ [32, 93] else 91 :: (ls ++ [93]))) ∨
     (lua_string (utf8Bytes "a1") = .error PipelineError.unrepresentableString ∧
      lua_key (utf8Bytes "a1") = .error PipelineError.unrepresentableString)) ∧
    (∃ err, lua_string [34, 93, 93, 93, 61, 93] = .error err) :=
  ⟨claim_C9_escaping.1 (utf8Bytes "offset") (by decide),
   claim_C9_escaping.2.1 (utf8Bytes "a1") (by decide),
   (claim_C9_escaping.2.2 [34, 93, 93, 93, 61, 93]).mpr (by decide)⟩

end NetInstall
